import Mathlib

/-!
Verification of the upipe MPEG-2 video framer (`upipe_mp2v_framer.c`) and the
inline attribute dictionary (`udict_inline.c`) against their natural-language
specification.  The C code is shallowly embedded: machine integers become `Nat`
with explicit `% 2^64` where overflow matters, buffers become `List Nat` of
byte values, and the `UINT64_MAX` "absent" sentinel is kept as a concrete
number so that the embedded functions mirror the C control flow.

The file is organised as definitions first (the embedding), then theorems.
-/

namespace Upipe

/-- Clock frequency in Hz (`UCLOCK_FREQ`).  Modelled from the spec: the value
27 000 000 Hz is stated in the spec ("frequency is 27 000 000 Hz", "27 MHz
ticks"); `uclock.h` itself is not under `src/`. -/
def UCLOCK_FREQ : Nat := 27000000

/-- Largest value of a 64-bit unsigned integer, used by the framer as the
"absent" sentinel for timestamps. -/
def UINT64_MAX : Nat := 2 ^ 64 - 1

/-! ### MPEG-2 start-code values

Modelled from the spec and ISO/IEC 13818-2: the numeric values of the start
codes come from the external `bitstream/mpeg/mp2v.h` header (an external
collaborator, not part of this repository).  `picture_start` is 0x00, slices
are `picture_start + 1 .. picture_last` = 0x01..0xAF, and the sequence, GOP,
extension and end-of-sequence codes are the standard 0xB3, 0xB8, 0xB5, 0xB7. -/

def MP2VPIC_START_CODE : Nat := 0x00
def MP2VPIC_LAST_CODE : Nat := 0xAF
def MP2VSEQ_START_CODE : Nat := 0xB3
def MP2VX_START_CODE : Nat := 0xB5
def MP2VEND_START_CODE : Nat := 0xB7
def MP2VGOP_START_CODE : Nat := 0xB8

/-- Picture-structure values of the MPEG-2 picture coding extension
(`mp2v.h`): 1 = top field, 2 = bottom field, 3 = frame picture. -/
def MP2VPICX_TOP_FIELD : Nat := 1
def MP2VPICX_BOTTOM_FIELD : Nat := 2
def MP2VPICX_FRAME_PICTURE : Nat := 3

/-! ### Duration computation (claim C4)

Embedding of the duration computation in `upipe_mp2vf_parse_picture`
(`upipe_mp2v_framer.c`, lines 750-795).  The picture coding extension data is
an `Option`: `none` when the stream carries no MPEG-2 extension, in which case
the base duration is kept. -/

/-- Data read from the picture coding extension: picture structure, top-field
first flag, repeat-first-field flag. -/
structure PicExt where
  picStruct : Nat
  tff : Bool
  rff : Bool
deriving DecidableEq

/-- Duration computation of `upipe_mp2vf_parse_picture`, translated from the C
source: base `UCLOCK_FREQ * fps_den / fps_num` (integer division), then
adjusted from the picture coding extension exactly as the code does. -/
def upipe_mp2vf_duration (progressive_sequence : Bool) (fps_num fps_den : Nat)
    (ext : Option PicExt) : Nat :=
  let duration := UCLOCK_FREQ * fps_den / fps_num
  match ext with
  | none => duration
  | some e =>
    if progressive_sequence then
      if e.rff then duration * (1 + (if e.tff then 1 else 0)) else duration
    else
      if e.picStruct = MP2VPICX_FRAME_PICTURE then
        if e.rff then duration + duration / 2 else duration
      else
        duration / 2

/-- Duration computation as worded by the spec, for comparison with the
code-derived `upipe_mp2vf_duration`: base 27000000·fps_den/fps_num; if the
sequence is progressive and RFF is set, multiply by (1 + TFF); if interlaced
with frame structure and RFF, add half of the duration; if interlaced with a
single-field structure, halve it. -/
def durationSpec (progressive_sequence : Bool) (fps_num fps_den : Nat)
    (ext : Option PicExt) : Nat :=
  let base := 27000000 * fps_den / fps_num
  match ext with
  | none => base
  | some e =>
    if progressive_sequence ∧ e.rff then
      base * (1 + (if e.tff then 1 else 0))
    else if ¬progressive_sequence ∧ e.picStruct = MP2VPICX_FRAME_PICTURE ∧ e.rff then
      base + base / 2
    else if ¬progressive_sequence ∧
        (e.picStruct = MP2VPICX_TOP_FIELD ∨ e.picStruct = MP2VPICX_BOTTOM_FIELD) then
      base / 2
    else base

/-! ### Picture numbering (claim C9)

Embedding of the picture-number computation in `upipe_mp2vf_parse_picture`
(lines 736-741).  `last_picture_number` is a C `uint64_t`,
`last_temporal_reference` a C `int` (initialised to -1), `temporalreference` a
`uint16_t`; the sum `last_picture_number + (temporalreference -
last_temporal_reference)` is computed modulo 2^64 as in C unsigned
arithmetic. -/

/-- Result of the picture numbering step: published picture number and the two
updated state variables. -/
structure PicNumResult where
  picture_number : Nat
  last_picture_number : Nat
  last_temporal_reference : Int
deriving DecidableEq

/-- Picture-number computation and state update of
`upipe_mp2vf_parse_picture`, translated from the C source. -/
def upipe_mp2vf_picture_number (last_picture_number : Nat)
    (last_temporal_reference : Int) (temporalreference : Nat) : PicNumResult :=
  let picture_number : Nat :=
    (((last_picture_number : Int) + ((temporalreference : Int) - last_temporal_reference))
      % (2 ^ 64 : Int)).toNat
  if (temporalreference : Int) > last_temporal_reference then
    { picture_number := picture_number
      last_picture_number := picture_number
      last_temporal_reference := (temporalreference : Int) }
  else
    { picture_number := picture_number
      last_picture_number := last_picture_number
      last_temporal_reference := last_temporal_reference }

/-! ### Timestamp registers (claims C3 and C10)

Embedding of the `next_frame_*` timestamp registers of `struct upipe_mp2vf`
and the functions `upipe_mp2vf_flush_pts`, `upipe_mp2vf_flush_dts`,
`upipe_mp2vf_increment_dts` (lines 175-213), the `SET_TIMESTAMP` block at the
end of `upipe_mp2vf_parse_picture` (lines 809-824) and
`upipe_mp2vf_promote_uref` (lines 929-943).  Registers are C `uint64_t` with
`UINT64_MAX` as the "absent" sentinel; additions are modulo 2^64. -/

/-- The six `next_frame_*` timestamp registers. -/
structure NextFrameTS where
  pts_orig : Nat
  pts : Nat
  pts_sys : Nat
  dts_orig : Nat
  dts : Nat
  dts_sys : Nat
deriving DecidableEq

/-- The six clock attributes carried by a uref; `none` means the attribute is
absent (deleted). -/
structure ClockAttrs where
  pts_orig : Option Nat
  pts : Option Nat
  pts_sys : Option Nat
  dts_orig : Option Nat
  dts : Option Nat
  dts_sys : Option Nat
deriving DecidableEq

/-- A `ClockAttrs` with every attribute absent. -/
def ClockAttrs.empty : ClockAttrs := ⟨none, none, none, none, none, none⟩

/-- `upipe_mp2vf_flush_pts`: reset the three PTS registers to the sentinel. -/
def upipe_mp2vf_flush_pts (r : NextFrameTS) : NextFrameTS :=
  { r with pts_orig := UINT64_MAX, pts := UINT64_MAX, pts_sys := UINT64_MAX }

/-- `upipe_mp2vf_flush_dts`: reset the three DTS registers to the sentinel. -/
def upipe_mp2vf_flush_dts (r : NextFrameTS) : NextFrameTS :=
  { r with dts_orig := UINT64_MAX, dts := UINT64_MAX, dts_sys := UINT64_MAX }

/-- `upipe_mp2vf_increment_dts`: add the frame duration to every DTS register
that is not the sentinel (C unsigned addition, modulo 2^64). -/
def upipe_mp2vf_increment_dts (r : NextFrameTS) (duration : Nat) : NextFrameTS :=
  { r with
    dts_orig := if r.dts_orig ≠ UINT64_MAX then (r.dts_orig + duration) % 2 ^ 64
                else r.dts_orig
    dts := if r.dts ≠ UINT64_MAX then (r.dts + duration) % 2 ^ 64 else r.dts
    dts_sys := if r.dts_sys ≠ UINT64_MAX then (r.dts_sys + duration) % 2 ^ 64
               else r.dts_sys }

/-- The `SET_TIMESTAMP` block of `upipe_mp2vf_parse_picture`: each clock
attribute of the outgoing uref is set from its register when the register is
not the sentinel, and deleted otherwise.  The result does not depend on the
attributes the uref carried before (`_u`), since every attribute is either
overwritten or deleted. -/
def upipe_mp2vf_set_timestamps (r : NextFrameTS) (_u : ClockAttrs) : ClockAttrs :=
  { pts_orig := if r.pts_orig ≠ UINT64_MAX then some r.pts_orig else none
    pts := if r.pts ≠ UINT64_MAX then some r.pts else none
    pts_sys := if r.pts_sys ≠ UINT64_MAX then some r.pts_sys else none
    dts_orig := if r.dts_orig ≠ UINT64_MAX then some r.dts_orig else none
    dts := if r.dts ≠ UINT64_MAX then some r.dts else none
    dts_sys := if r.dts_sys ≠ UINT64_MAX then some r.dts_sys else none }

/-- Timestamp effect of emitting one frame (tail of
`upipe_mp2vf_parse_picture`): write the attributes, then `flush_pts` and
`increment_dts` with the computed duration. -/
def upipe_mp2vf_emit_ts (r : NextFrameTS) (u : ClockAttrs) (duration : Nat) :
    ClockAttrs × NextFrameTS :=
  (upipe_mp2vf_set_timestamps r u,
   upipe_mp2vf_increment_dts (upipe_mp2vf_flush_pts r) duration)

/-- `upipe_mp2vf_promote_uref`: each register is overwritten from the newly
promoted uref when that uref carries the attribute, and kept otherwise. -/
def upipe_mp2vf_promote_uref (r : NextFrameTS) (u : ClockAttrs) : NextFrameTS :=
  { pts_orig := u.pts_orig.getD r.pts_orig
    pts := u.pts.getD r.pts
    pts_sys := u.pts_sys.getD r.pts_sys
    dts_orig := u.dts_orig.getD r.dts_orig
    dts := u.dts.getD r.dts
    dts_sys := u.dts_sys.getD r.dts_sys }

/-- Timestamp trace of a run of consecutive frame emissions with the given
durations and no intervening promotion. -/
def emitRun (r : NextFrameTS) : List Nat → List ClockAttrs × NextFrameTS
  | [] => ([], r)
  | dur :: rest =>
    let step := upipe_mp2vf_emit_ts r ClockAttrs.empty dur
    let tail := emitRun step.2 rest
    (step.1 :: tail.1, tail.2)

/-- A step of the framer's timestamp state machine: either a new uref is
promoted (`upipe_mp2vf_promote_uref`) or a frame is emitted with some
duration. -/
inductive TSOp where
  | promote (u : ClockAttrs)
  | emit (duration : Nat)

/-- Run of the timestamp state machine, collecting the clock attributes of
every emitted frame. -/
def runTS (r : NextFrameTS) : List TSOp → List ClockAttrs × NextFrameTS
  | [] => ([], r)
  | TSOp.promote u :: rest => runTS (upipe_mp2vf_promote_uref r u) rest
  | TSOp.emit dur :: rest =>
    let step := upipe_mp2vf_emit_ts r ClockAttrs.empty dur
    let tail := runTS step.2 rest
    (step.1 :: tail.1, tail.2)

/-- Concrete register bank used by witnesses: all PTS registers 0, all DTS
registers 1000. -/
def tsWitnessRegs : NextFrameTS :=
  { pts_orig := 0, pts := 0, pts_sys := 0, dts_orig := 1000, dts := 1000,
    dts_sys := 1000 }

/-- Concrete register bank used by witnesses: every register absent. -/
def tsAbsentRegs : NextFrameTS :=
  { pts_orig := UINT64_MAX, pts := UINT64_MAX, pts_sys := UINT64_MAX,
    dts_orig := UINT64_MAX, dts := UINT64_MAX, dts_sys := UINT64_MAX }

/-- Concrete uref attributes used by witnesses: PTS present, DTS absent. -/
def ptsOnlyAttrs : ClockAttrs := ⟨some 5, some 5, some 5, none, none, none⟩

/-! ### Discontinuity policy (claim C8)

Embedding of the data path of `upipe_mp2vf_input` (lines 1072-1089) together
with the octet-stream helper's `append` (promote the uref when no `next_uref`
is held, else enqueue) and `clean`/`init` (drop everything).  A uref is
modelled by an identifier plus its `f.disc` and `f.error` void attributes. -/

/-- An input uref as seen by the discontinuity logic: an identifier and the
`f.disc` / `f.error` flags. -/
structure Uref8 where
  id : Nat
  disc : Bool
  error : Bool
deriving DecidableEq

/-- Octet-stream state of the framer relevant to the discontinuity policy. -/
structure OctetStreamState where
  next_uref : Option Uref8
  urefs : List Uref8
  next_frame_slice : Bool
  got_discontinuity : Bool
deriving DecidableEq

/-- `upipe_mp2vf_append_octet_stream`: promote the uref when none is held,
otherwise enqueue it after the pending ones. -/
def append_octet_stream (s : OctetStreamState) (u : Uref8) : OctetStreamState :=
  match s.next_uref with
  | none => { s with next_uref := some u }
  | some _ => { s with urefs := s.urefs ++ [u] }

/-- Data path of `upipe_mp2vf_input` for a uref carrying a payload.  If the
uref has `f.disc`: when no slice start code has been seen yet the whole
octet-stream queue is released (`clean` + `init`) and `got_discontinuity` is
set; otherwise the in-flight `next_uref` is marked `f.error`.  The incoming
uref is then appended. -/
def upipe_mp2vf_input_data (s : OctetStreamState) (u : Uref8) : OctetStreamState :=
  let s' :=
    if u.disc then
      if ¬s.next_frame_slice then
        { s with next_uref := none, urefs := [], got_discontinuity := true }
      else
        { s with next_uref := s.next_uref.map (fun n => { n with error := true }) }
    else s
  append_octet_stream s' u

/-- Fold of `upipe_mp2vf_input_data` over a list of input urefs. -/
def inputRun (s : OctetStreamState) (us : List Uref8) : OctetStreamState :=
  us.foldl upipe_mp2vf_input_data s

/-! ### Start-code parser loop and frame validation (claim C1)

Embedding of `upipe_mp2vf_work` (lines 950-1034) together with the frame
validation path it calls: `upipe_mp2vf_output_frame`,
`upipe_mp2vf_handle_sequence` (with `upipe_mp2vf_extract_sequence`,
`upipe_mp2vf_extract_extension`, `upipe_mp2vf_extract_display` and
`upipe_mp2vf_parse_sequence`) and the header checks and state updates of
`upipe_mp2vf_parse_picture`.  Modelled from the spec where the repository
code is outside `src/`: the octet-stream helper
(`upipe_helper_octet_stream.h`) "exposes the queue as one logical byte
stream", so the queue is the single byte list `stream` and `consume n` is
`List.drop n`; the bitstream accessors and header sizes
(`bitstream/mpeg/mp2v.h`) follow the spec's "Header parsing (constants from
ISO/IEC 13818-2)" field lists.  Memory allocation (`uref_dup`, `ubuf_dup`,
attribute setting) is modelled as succeeding, as in the udict embedding;
under that assumption `upipe_mp2vf_output_frame` returns false exactly when a
header check of lines 262-833 fails, and the failure branch of the work loop
(lines 1001-1011: consume the frame, raise `sync_lost`, emit nothing) is
embedded in `workStep`.  The timestamp-register effects
(`flush_pts`/`flush_dts`/`increment_dts`, `SET_TIMESTAMP`) are covered by the
`NextFrameTS` model of claims C3/C10, the duration value by the claim C4
model; attribute-only effects (`f.random`, `f.disc` marking, vbv delay,
`k.systime.rap`; `insert_sequence` is false as initialised by
`upipe_mp2vf_alloc`) and `urational_simplify` (value-preserving
representation change of `fps`) do not influence frame boundaries or the
validation result and are not tracked. -/

/-- Byte of a stream at a position, 0 beyond the end (C reads are always
in-bounds in the modelled runs; the 0 default makes the functions total). -/
def byteAt (s : List Nat) (i : Nat) : Nat := s.getD i 0

/-- Modelled from the spec: sequence header size of ISO/IEC 13818-2
(`MP2VSEQ_HEADER_SIZE` of `bitstream/mpeg/mp2v.h`). -/
def MP2VSEQ_HEADER_SIZE : Nat := 12

/-- Modelled from the spec: sequence extension size. -/
def MP2VSEQX_HEADER_SIZE : Nat := 10

/-- Modelled from the spec: sequence display extension size without colour
description. -/
def MP2VSEQDX_HEADER_SIZE : Nat := 9

/-- Modelled from the spec: colour description size of the sequence display
extension. -/
def MP2VSEQDX_COLOR_SIZE : Nat := 3

/-- Modelled from the spec: picture header size. -/
def MP2VPIC_HEADER_SIZE : Nat := 8

/-- Modelled from the spec: picture coding extension size. -/
def MP2VPICX_HEADER_SIZE : Nat := 9

/-- Modelled from the spec: GOP header size. -/
def MP2VGOP_HEADER_SIZE : Nat := 8

/-- Modelled from the spec: extension identifier of the sequence extension. -/
def MP2VX_ID_SEQX : Nat := 1

/-- Modelled from the spec: extension identifier of the sequence display
extension. -/
def MP2VX_ID_SEQDX : Nat := 2

/-- Modelled from the spec: extension identifier of the picture coding
extension. -/
def MP2VX_ID_PICX : Nat := 8

/-- `frame_rate_from_code`, translated from the C source table (16 entries;
a zero numerator marks an invalid code). -/
def frame_rate_from_code : List (Nat × Nat) :=
  [(0, 0), (24000, 1001), (24, 1), (25, 1), (30000, 1001), (30, 1), (50, 1),
   (60000, 1001), (60, 1), (15000, 1001), (5000, 1001), (10000, 1001),
   (12000, 1001), (15000, 1001), (0, 0), (0, 0)]

/-- Modelled from the spec: aspect index, high nibble of byte 7 of the
sequence header. -/
def mp2vseq_get_aspect (h : List Nat) : Nat := byteAt h 7 / 16

/-- Modelled from the spec: frame-rate code, low nibble of byte 7 of the
sequence header. -/
def mp2vseq_get_framerate (h : List Nat) : Nat := byteAt h 7 % 16

/-- Modelled from the spec: profile-level byte of the sequence extension
(low nibble of byte 4, high nibble of byte 5). -/
def mp2vseqx_get_profilelevel (x : List Nat) : Nat :=
  byteAt x 4 % 16 * 16 + byteAt x 5 / 16

/-- Modelled from the spec: progressive-sequence flag of the sequence
extension. -/
def mp2vseqx_get_progressive (x : List Nat) : Bool := byteAt x 5 / 8 % 2 = 1

/-- Modelled from the spec: chroma format of the sequence extension. -/
def mp2vseqx_get_chroma (x : List Nat) : Nat := byteAt x 5 / 2 % 4

/-- Modelled from the spec: frame-rate extension numerator (2 bits of
byte 9). -/
def mp2vseqx_get_frameraten (x : List Nat) : Nat := byteAt x 9 / 32 % 4

/-- Modelled from the spec: frame-rate extension denominator (5 bits of
byte 9). -/
def mp2vseqx_get_framerated (x : List Nat) : Nat := byteAt x 9 % 32

/-- Modelled from the spec: MP2VSEQX level mask (low nibble of the
profile-level byte) and the four defined levels. -/
def MP2VSEQX_LEVEL_LOW : Nat := 10

/-- Modelled from the spec: main level code. -/
def MP2VSEQX_LEVEL_MAIN : Nat := 8

/-- Modelled from the spec: high-1440 level code. -/
def MP2VSEQX_LEVEL_HIGH1440 : Nat := 6

/-- Modelled from the spec: high level code. -/
def MP2VSEQX_LEVEL_HIGH : Nat := 4

/-- Modelled from the spec: temporal reference of a picture header (byte 4
and the top 2 bits of byte 5). -/
def mp2vpic_get_temporalreference (p : List Nat) : Nat :=
  byteAt p 4 * 4 + byteAt p 5 / 64

/-- Modelled from the spec: coding type of a picture header (3 bits of
byte 5). -/
def mp2vpic_get_codingtype (p : List Nat) : Nat := byteAt p 5 / 8 % 8

/-- Header-parsing state of `struct upipe_mp2vf` threaded through
`upipe_mp2vf_output_frame`: the cached sequence header / extension / display
buffers, the `progressive_sequence` flag and `fps` rational set by
`upipe_mp2vf_parse_sequence`, and the picture-numbering registers updated by
`upipe_mp2vf_parse_picture`. -/
structure FramerHdrState where
  sequence_header : Option (List Nat)
  sequence_ext : Option (List Nat)
  sequence_display : Option (List Nat)
  progressive_sequence : Bool
  fps_num : Nat
  fps_den : Nat
  last_picture_number : Nat
  last_temporal_reference : Int
deriving DecidableEq

/-- Scan loop of `uref_block_find` with the 00 00 01 pattern followed by the
extraction of the start-code value byte (`upipe_mp2vf_find`): find the first
position `≥ i` holding 00 00 01 with a fourth byte available.  `fuel` is a
termination device; the wrapper passes enough for the whole stream. -/
def findStartLoop (s : List Nat) : Nat → Nat → Option Nat
  | 0, _ => none
  | fuel + 1, i =>
    if i + 4 ≤ s.length then
      if byteAt s i = 0 ∧ byteAt s (i + 1) = 0 ∧ byteAt s (i + 2) = 1 then some i
      else findStartLoop s fuel (i + 1)
    else none

/-- `upipe_mp2vf_find`: position of the next start code at or after `i`. -/
def upipe_mp2vf_find (s : List Nat) (i : Nat) : Option Nat :=
  findStartLoop s (s.length + 1) i

/-- Scan loop of `uref_block_find` with the 4-byte `FIND_EXTENSION` token
00 00 01 B5. -/
def findExtLoop (f : List Nat) : Nat → Nat → Option Nat
  | 0, _ => none
  | fuel + 1, i =>
    if i + 4 ≤ f.length then
      if byteAt f i = 0 ∧ byteAt f (i + 1) = 0 ∧ byteAt f (i + 2) = 1 ∧
          byteAt f (i + 3) = MP2VX_START_CODE then some i
      else findExtLoop f fuel (i + 1)
    else none

/-- `upipe_mp2vf_find_ext`: position of the next extension start code at or
after `i` in the frame, together with its identifier (byte at position + 4,
shifted right by 4); `none` when the find or the identifier extraction fails
(the caller then proceeds without an extension). -/
def upipe_mp2vf_find_ext (f : List Nat) (i : Nat) : Option (Nat × Nat) :=
  match findExtLoop f (f.length + 1) i with
  | none => none
  | some p => if p + 5 ≤ f.length then some (p, byteAt f (p + 4) / 16) else none

/-- Scan loop of `uref_block_find` with the 4-byte `FIND_GOP` token
00 00 01 B8. -/
def findGopLoop (f : List Nat) : Nat → Nat → Option Nat
  | 0, _ => none
  | fuel + 1, i =>
    if i + 4 ≤ f.length then
      if byteAt f i = 0 ∧ byteAt f (i + 1) = 0 ∧ byteAt f (i + 2) = 1 ∧
          byteAt f (i + 3) = MP2VGOP_START_CODE then some i
      else findGopLoop f fuel (i + 1)
    else none

/-- GOP scan of `upipe_mp2vf_parse_picture` over the frame. -/
def upipe_mp2vf_find_gop (f : List Nat) : Option Nat :=
  findGopLoop f (f.length + 1) 0

/-- `upipe_mp2vf_extract_sequence`: the minimal sequence header at the start
of the frame (base 12 bytes, plus 64 per quantiser matrix as flagged by the
low bits of byte 11) and its length; `none` when the byte extraction or the
resize goes out of bounds. -/
def upipe_mp2vf_extract_sequence (f : List Nat) : Option (List Nat × Nat) :=
  if f.length < MP2VSEQ_HEADER_SIZE then none
  else
    let word := byteAt f 11
    let step : Option (Nat × Nat) :=
      if word % 4 / 2 = 1 then
        if f.length < MP2VSEQ_HEADER_SIZE + 64 then none
        else some (MP2VSEQ_HEADER_SIZE + 64, byteAt f 75)
      else some (MP2VSEQ_HEADER_SIZE, word)
    match step with
    | none => none
    | some (sz0, w) =>
      let sz := sz0 + (if w % 2 = 1 then 64 else 0)
      if f.length < sz then none
      else some (f.take sz, sz)

/-- `upipe_mp2vf_parse_sequence`: the validation chain of lines 291-487 with
allocations modelled as succeeding — invalid frame-rate code, invalid level,
invalid chroma and invalid aspect are the failure cases; on success returns
the new `progressive_sequence` flag and `fps` rational (the
`urational_simplify` normalisation is omitted as value-preserving). -/
def upipe_mp2vf_parse_sequence (seq_hdr : List Nat) (sext : Option (List Nat)) :
    Option (Bool × Nat × Nat) :=
  let fr := frame_rate_from_code.getD (mp2vseq_get_framerate seq_hdr) (0, 0)
  if fr.1 = 0 then none
  else
    let step2 : Option (Bool × Nat × Nat) :=
      match sext with
      | some ext =>
        let level := mp2vseqx_get_profilelevel ext % 16
        let chroma := mp2vseqx_get_chroma ext
        if level = MP2VSEQX_LEVEL_LOW ∨ level = MP2VSEQX_LEVEL_MAIN ∨
            level = MP2VSEQX_LEVEL_HIGH1440 ∨ level = MP2VSEQX_LEVEL_HIGH then
          if chroma = 1 ∨ chroma = 2 ∨ chroma = 3 then
            some (mp2vseqx_get_progressive ext,
              fr.1 * (mp2vseqx_get_frameraten ext + 1),
              fr.2 * (mp2vseqx_get_framerated ext + 1))
          else none
        else none
      | none => some (false, fr.1, fr.2)
    match step2 with
    | none => none
    | some r =>
      let aspect := mp2vseq_get_aspect seq_hdr
      if aspect = 1 ∨ aspect = 2 ∨ aspect = 3 ∨ aspect = 4 then some r
      else none

/-- `upipe_mp2vf_handle_sequence`: extract the sequence header, the optional
sequence extension (whose identifier must be `MP2VX_ID_SEQX`) and the
optional display extension; rotate the cache when all three compare equal to
the cached ones, otherwise store them and run `upipe_mp2vf_parse_sequence`.
The C stores the new buffers before parsing, so the returned state carries
them even when parsing fails.  (`upipe_mp2vf_extract_display` reads its
colour flag at the found start-code position, as the C does.) -/
def upipe_mp2vf_handle_sequence (hs : FramerHdrState) (f : List Nat) :
    Bool × FramerHdrState :=
  match upipe_mp2vf_extract_sequence f with
  | none => (false, hs)
  | some (seq_hdr, off0) =>
    let extStep : Option (Option (List Nat) × Option (List Nat)) :=
      match upipe_mp2vf_find_ext f off0 with
      | some (pos, hdr) =>
        if hdr ≠ MP2VX_ID_SEQX then none
        else if f.length < pos + MP2VSEQX_HEADER_SIZE then none
        else
          let ext := (f.drop pos).take MP2VSEQX_HEADER_SIZE
          match upipe_mp2vf_find_ext f (pos + MP2VSEQX_HEADER_SIZE) with
          | some (pos2, hdr2) =>
            if hdr2 = MP2VX_ID_SEQDX then
              let dsize := MP2VSEQDX_HEADER_SIZE +
                (if byteAt f pos2 % 2 = 1 then MP2VSEQDX_COLOR_SIZE else 0)
              if f.length < pos2 + dsize then none
              else some (some ext, some ((f.drop pos2).take dsize))
            else some (some ext, none)
          | none => some (some ext, none)
      | none => some (none, none)
    match extStep with
    | none => (false, hs)
    | some (sext, sdisplay) =>
      if hs.sequence_header = some seq_hdr ∧ hs.sequence_ext = sext ∧
          hs.sequence_display = sdisplay then
        (true, { hs with
                 sequence_header := some seq_hdr
                 sequence_ext := sext
                 sequence_display := sdisplay })
      else
        let hs1 := { hs with
                     sequence_header := some seq_hdr
                     sequence_ext := sext
                     sequence_display := sdisplay }
        match upipe_mp2vf_parse_sequence seq_hdr sext with
        | none => (false, hs1)
        | some (prog, num, den) =>
          (true, { hs1 with
                   progressive_sequence := prog
                   fps_num := num
                   fps_den := den })

/-- Header checks and state updates of `upipe_mp2vf_parse_picture` (lines
682-833) with allocations modelled as succeeding: the GOP peek, the picture
header peek and a picture coding extension with a wrong identifier or an
out-of-bounds peek are the failure cases; the accessor values beyond
`temporal_reference` feed only the duration (claim C4 model) and outgoing
attributes.  `upipe_mp2vf_handle_picture` adds no failure on top under the
allocation assumption (`uref_mp2v_get_type` reads back the type stored just
before, and the I-frame path only sets attributes with `insert_sequence`
false), so its result equals this one. -/
def upipe_mp2vf_parse_picture_hdrs (hs : FramerHdrState) (off : Nat)
    (f : List Nat) : Bool × FramerHdrState :=
  let gopStep : Option FramerHdrState :=
    if off ≠ 0 then
      match upipe_mp2vf_find_gop f with
      | some p =>
        if f.length < p + MP2VGOP_HEADER_SIZE then none
        else some { hs with last_temporal_reference := -1 }
      | none => some hs
    else some hs
  match gopStep with
  | none => (false, hs)
  | some hs1 =>
    if f.length < off + MP2VPIC_HEADER_SIZE then (false, hs1)
    else
      let pic := (f.drop off).take MP2VPIC_HEADER_SIZE
      let r := upipe_mp2vf_picture_number hs1.last_picture_number
        hs1.last_temporal_reference (mp2vpic_get_temporalreference pic)
      let hs2 := { hs1 with
                   last_picture_number := r.last_picture_number
                   last_temporal_reference := r.last_temporal_reference }
      match upipe_mp2vf_find_ext f (off + MP2VPIC_HEADER_SIZE) with
      | some (p, hdr) =>
        if hdr ≠ MP2VX_ID_PICX then (false, hs2)
        else if f.length < p + MP2VPICX_HEADER_SIZE then (false, hs2)
        else (true, hs2)
      | none => (true, hs2)

/-- `upipe_mp2vf_output_frame` with allocations modelled as succeeding:
validate the sequence header (when the frame starts with one) and the picture
headers of the frame `f`; `true` means the frame is output. -/
def upipe_mp2vf_output_frame (hs : FramerHdrState) (seq : Bool) (off : Nat)
    (f : List Nat) : Bool × FramerHdrState :=
  if seq then
    let r := upipe_mp2vf_handle_sequence hs f
    if r.1 = false then (false, r.2)
    else upipe_mp2vf_parse_picture_hdrs r.2 off f
  else upipe_mp2vf_parse_picture_hdrs hs off f

/-- Parser state of `upipe_mp2vf_work`: the logical byte stream, the frames
emitted so far, the header-parsing state and the `acquired` / `next_frame_*`
fields of `struct upipe_mp2vf`.  `next_frame_offset` is `none` for the C
value -1. -/
structure MState where
  stream : List Nat
  output : List (List Nat)
  hdr : FramerHdrState
  acquired : Bool
  next_frame_size : Nat
  next_frame_sequence : Bool
  next_frame_offset : Option Nat
  next_frame_slice : Bool
deriving DecidableEq

/-- One iteration of the `while` loop of `upipe_mp2vf_work`, translated from
the C source including the `upipe_mp2vf_output_frame` failure branch (lines
1001-1011: consume the frame bytes, reset the frame registers, `sync_lost`,
nothing emitted); `none` when `upipe_mp2vf_find` fails and the loop exits
waiting for more data. -/
def workStep (st : MState) : Option MState :=
  match upipe_mp2vf_find st.stream st.next_frame_size with
  | none => none
  | some i =>
    let start := byteAt st.stream (i + 3)
    if st.acquired = false then
      let st1 : MState := { st with stream := st.stream.drop i, next_frame_size := 0 }
      let st2 :=
        if start = MP2VSEQ_START_CODE then
          { st1 with acquired := true, next_frame_sequence := true }
        else st1
      some { st2 with next_frame_size := st2.next_frame_size + 4 }
    else if st.next_frame_offset = none then
      if start = MP2VPIC_START_CODE then
        some { st with next_frame_offset := some i, next_frame_size := i + 4 }
      else
        some { st with next_frame_size := i + 4 }
    else if start = MP2VX_START_CODE then
      some { st with next_frame_size := i + 4 }
    else if MP2VPIC_START_CODE < start ∧ start ≤ MP2VPIC_LAST_CODE then
      some { st with next_frame_slice := true, next_frame_size := i + 4 }
    else
      let sz := if start = MP2VEND_START_CODE then i + 4 else i
      let r := upipe_mp2vf_output_frame st.hdr st.next_frame_sequence
        (st.next_frame_offset.getD 0) (st.stream.take sz)
      if r.1 = false then
        some { stream := st.stream.drop sz
               output := st.output
               hdr := r.2
               acquired := false
               next_frame_size := 0
               next_frame_sequence := false
               next_frame_offset := none
               next_frame_slice := false }
      else
        let st1 : MState :=
          { stream := st.stream.drop sz
            output := st.output ++ [st.stream.take sz]
            hdr := r.2
            acquired := st.acquired
            next_frame_size := 4
            next_frame_sequence := false
            next_frame_offset := none
            next_frame_slice := false }
        if start = MP2VSEQ_START_CODE then
          some { st1 with next_frame_sequence := true }
        else if start = MP2VGOP_START_CODE then
          some st1
        else if start = MP2VPIC_START_CODE then
          some { st1 with next_frame_offset := some 0 }
        else if start = MP2VEND_START_CODE then
          some { st1 with next_frame_size := 0, acquired := false }
        else
          some { st1 with acquired := false }

/-- The `while` loop of `upipe_mp2vf_work`: iterate `workStep` until the find
fails (`fuel` bounds the number of iterations; every concrete run below uses
enough of it). -/
def workRun : Nat → MState → MState
  | 0, st => st
  | fuel + 1, st =>
    match workStep st with
    | none => st
    | some st' => workRun fuel st'

/-- Header state of a freshly allocated pipe (`upipe_mp2vf_alloc`: no cached
sequence buffers, `last_picture_number` 0, `last_temporal_reference` -1; the
`progressive_sequence`/`fps` fields are not read before the first sequence
parse sets them and are zero-initialised here). -/
def framerHdrInit : FramerHdrState :=
  { sequence_header := none, sequence_ext := none, sequence_display := none,
    progressive_sequence := false, fps_num := 0, fps_den := 0,
    last_picture_number := 0, last_temporal_reference := -1 }

/-- Initial parser state on a freshly allocated pipe fed with byte stream
`s`. -/
def mp2vfInit (s : List Nat) : MState :=
  { stream := s, output := [], hdr := framerHdrInit, acquired := false,
    next_frame_size := 0, next_frame_sequence := false,
    next_frame_offset := none, next_frame_slice := false }

/-- Whether the byte stream contains a slice start code (a start code whose
value lies in `picture_start + 1 .. picture_last`) anywhere. -/
def hasSliceStartCode (s : List Nat) : Bool :=
  (List.range s.length).any fun i =>
    decide (byteAt s i = 0 ∧ byteAt s (i + 1) = 0 ∧ byteAt s (i + 2) = 1 ∧
      MP2VPIC_START_CODE < s.getD (i + 3) 0 ∧
      s.getD (i + 3) 0 ≤ MP2VPIC_LAST_CODE)

/-- Concrete stream for the claim C1 counterexample: a full 12-byte sequence
header (aspect 1, frame-rate code 3, no quantiser matrices, no extensions),
an 8-byte picture header (temporal reference 0, coding type I), then a GOP
start code — no slice start code anywhere.  The headers parse: the frame
validation succeeds on the 20-byte frame. -/
def c1Stream : List Nat :=
  [0, 0, 1, 0xB3, 0x12, 0x00, 0x34, 0x13, 0xFF, 0xFF, 0xE0, 0x20,
   0, 0, 1, 0x00, 0x00, 0x08, 0x3F, 0xFF, 0, 0, 1, 0xB8]

/-- The frame emitted on `c1Stream`: sequence header plus picture header,
ending immediately before the GOP start code. -/
def c1Frame : List Nat := c1Stream.take 20

/-- Parser state just before the emission on `c1Stream`: sync acquired at the
sequence header, picture start code recorded at offset 12, no slice seen,
scan position past the picture header. -/
def c1EmitState : MState :=
  { stream := c1Stream, output := [], hdr := framerHdrInit, acquired := true,
    next_frame_size := 16, next_frame_sequence := true,
    next_frame_offset := some 12, next_frame_slice := false }

/-- Parser state just after the emission on `c1Stream`: the frame is out, the
GOP start code is withheld as the head of the stream, and the header state
caches the parsed sequence header (25 fps, picture number advanced). -/
def c1EmittedState : MState :=
  { stream := [0, 0, 1, 0xB8]
    output := [c1Frame]
    hdr := { framerHdrInit with
             sequence_header := some (c1Stream.take 12)
             fps_num := 25
             fps_den := 1
             last_picture_number := 1
             last_temporal_reference := 0 }
    acquired := true
    next_frame_size := 4
    next_frame_sequence := false
    next_frame_offset := none
    next_frame_slice := false }

/-! ### Inline attribute dictionary (claims C2, C5, C6, C7)

Embedding of `udict_inline.c`.  The dictionary buffer is the list of its used
bytes (`inl->size` = `buf.length`); `cap` mirrors the umem allocation size
(`umem_size`).  Byte reads are `byteAt`; `umem_realloc` is modelled as always
succeeding.

Type codes: modelled from the spec, which lists the types in the order `end`,
`opaque`, `string`, `void`, `bool`, `small_unsigned`, `small_int`, `unsigned`,
`int`, `rational`, `float` — codes 0..10, consistent with the `attr_sizes`
table of `udict_inline.c` (`udict.h` itself is not under `src/`).  The
`UDICT_TYPE_SHORTHAND` base value is likewise not in `src/`; its concrete
value (16 here) is irrelevant to every claim, which speak of positions past
the base. -/

def UDICT_TYPE_END : Nat := 0
def UDICT_TYPE_OPAQUE : Nat := 1
def UDICT_TYPE_STRING : Nat := 2
def UDICT_TYPE_VOID : Nat := 3
def UDICT_TYPE_BOOL : Nat := 4
def UDICT_TYPE_SMALL_UNSIGNED : Nat := 5
def UDICT_TYPE_SMALL_INT : Nat := 6
def UDICT_TYPE_UNSIGNED : Nat := 7
def UDICT_TYPE_INT : Nat := 8
def UDICT_TYPE_RATIONAL : Nat := 9
def UDICT_TYPE_FLOAT : Nat := 10
def UDICT_TYPE_SHORTHAND : Nat := 16

/-- The `attr_sizes` table of `udict_inline.c`: value size of each basic
type. -/
def attr_sizes : List Nat := [0, 0, 0, 0, 1, 1, 1, 8, 8, 16, 8]

/-- A shorthand table entry: name and base type (`struct inline_shorthand`). -/
structure InlineShorthand where
  name : List Nat
  base_type : Nat
deriving DecidableEq

/-- ASCII bytes of a name string. -/
def strBytes (s : String) : List Nat := s.data.map Char.toNat

/-- The `inline_shorthands` table of `udict_inline.c`, in source order; the
first entry is the shorthand `UDICT_TYPE_SHORTHAND + 1`. -/
def inline_shorthands : List InlineShorthand := [
  ⟨strBytes "f.disc", UDICT_TYPE_VOID⟩,
  ⟨strBytes "f.random", UDICT_TYPE_VOID⟩,
  ⟨strBytes "f.error", UDICT_TYPE_VOID⟩,
  ⟨strBytes "f.def", UDICT_TYPE_STRING⟩,
  ⟨strBytes "f.rawdef", UDICT_TYPE_STRING⟩,
  ⟨strBytes "f.program", UDICT_TYPE_STRING⟩,
  ⟨strBytes "f.lang", UDICT_TYPE_STRING⟩,
  ⟨strBytes "k.systime", UDICT_TYPE_UNSIGNED⟩,
  ⟨strBytes "k.systime.rap", UDICT_TYPE_UNSIGNED⟩,
  ⟨strBytes "k.pts", UDICT_TYPE_UNSIGNED⟩,
  ⟨strBytes "k.pts.orig", UDICT_TYPE_UNSIGNED⟩,
  ⟨strBytes "k.pts.sys", UDICT_TYPE_UNSIGNED⟩,
  ⟨strBytes "k.dts", UDICT_TYPE_UNSIGNED⟩,
  ⟨strBytes "k.dts.orig", UDICT_TYPE_UNSIGNED⟩,
  ⟨strBytes "k.dts.sys", UDICT_TYPE_UNSIGNED⟩,
  ⟨strBytes "k.vbvdelay", UDICT_TYPE_UNSIGNED⟩,
  ⟨strBytes "k.duration", UDICT_TYPE_UNSIGNED⟩,
  ⟨strBytes "b.start", UDICT_TYPE_VOID⟩,
  ⟨strBytes "b.end", UDICT_TYPE_VOID⟩,
  ⟨strBytes "p.num", UDICT_TYPE_UNSIGNED⟩,
  ⟨strBytes "p.hsize", UDICT_TYPE_UNSIGNED⟩,
  ⟨strBytes "p.vsize", UDICT_TYPE_UNSIGNED⟩,
  ⟨strBytes "p.hsizevis", UDICT_TYPE_UNSIGNED⟩,
  ⟨strBytes "p.vsizevis", UDICT_TYPE_UNSIGNED⟩,
  ⟨strBytes "p.hposition", UDICT_TYPE_UNSIGNED⟩,
  ⟨strBytes "p.vposition", UDICT_TYPE_UNSIGNED⟩,
  ⟨strBytes "p.aspect", UDICT_TYPE_RATIONAL⟩,
  ⟨strBytes "p.progressive", UDICT_TYPE_VOID⟩,
  ⟨strBytes "p.tf", UDICT_TYPE_VOID⟩,
  ⟨strBytes "p.bf", UDICT_TYPE_VOID⟩,
  ⟨strBytes "p.tff", UDICT_TYPE_VOID⟩]

/-- Bound check of `udict_inline_shorthand`: the C code returns NULL exactly
when `type > UDICT_TYPE_SHORTHAND + 1 + (table length)`. -/
def shorthandRejected (t : Nat) : Bool :=
  decide (UDICT_TYPE_SHORTHAND + 1 + inline_shorthands.length < t)

/-- `udict_inline_shorthand`.  For `t = UDICT_TYPE_SHORTHAND + 32` the C
bound check passes and `inline_shorthands[31]` is read one element past the
31-entry table (undefined behaviour); the model returns `none` for that
out-of-bounds index (see the claim C6 theorem). -/
def udict_inline_shorthand (t : Nat) : Option InlineShorthand :=
  if shorthandRejected t then none
  else inline_shorthands[t - UDICT_TYPE_SHORTHAND - 1]?

/-- Whether a base type stores a 16-bit length field (opaque or string). -/
def isVarBase (base : Nat) : Bool :=
  base = UDICT_TYPE_OPAQUE ∨ base = UDICT_TYPE_STRING

/-- The 16-bit big-endian length field of the attribute at `attr`
(`(attr[1] << 8) | attr[2]`; for byte values the bitwise or is addition). -/
def be16At (buf : List Nat) (attr : Nat) : Nat :=
  byteAt buf (attr + 1) * 256 + byteAt buf (attr + 2)

/-- `udict_inline_next`: jump past the attribute at `attr`. -/
def udict_inline_next (buf : List Nat) (attr : Nat) : Option Nat :=
  let t := byteAt buf attr
  if t = UDICT_TYPE_END then none
  else if UDICT_TYPE_SHORTHAND < t then
    match udict_inline_shorthand t with
    | none => none
    | some sh =>
      if ¬(isVarBase sh.base_type = true) then
        some (attr + attr_sizes.getD sh.base_type 0 + 1)
      else
        some (attr + 3 + be16At buf attr)
  else
    some (attr + 3 + be16At buf attr)

/-- The `strcmp((const char *)(attr + 3), name) == 0` test for a NUL-free
`name`: the bytes at `pos` are exactly `name` followed by a NUL. -/
def cstrEqAt (buf : List Nat) : Nat → List Nat → Bool
  | pos, [] => decide (byteAt buf pos = 0)
  | pos, c :: rest => decide (byteAt buf pos = c) && cstrEqAt buf (pos + 1) rest

/-- Loop of `udict_inline_find`; `fuel` is a termination device (one unit per
attribute visited), supplied amply by the wrapper. -/
def udict_inline_find_loop (buf name : List Nat) (ty : Nat) :
    Nat → Nat → Option Nat
  | 0, _ => none
  | fuel + 1, attr =>
    if byteAt buf attr = ty ∧
        (UDICT_TYPE_SHORTHAND < ty ∨ ty = UDICT_TYPE_END ∨
          cstrEqAt buf (attr + 3) name = true) then
      some attr
    else
      match udict_inline_next buf attr with
      | none => none
      | some n => udict_inline_find_loop buf name ty fuel n

/-- `udict_inline_find`: linear scan from the start of the buffer. -/
def udict_inline_find (buf name : List Nat) (ty : Nat) : Option Nat :=
  udict_inline_find_loop buf name ty (buf.length + 1) 0

/-- `_udict_inline_get`: position and length of the value of the attribute
with the given name and type. -/
def udict_inline_get_pos (buf name : List Nat) (ty : Nat) : Option (Nat × Nat) :=
  match udict_inline_find buf name ty with
  | none => none
  | some attr =>
    if UDICT_TYPE_SHORTHAND < ty then
      match udict_inline_shorthand (byteAt buf attr) with
      | none => none
      | some sh =>
        if ¬(isVarBase sh.base_type = true) then
          some (attr + 1, attr_sizes.getD sh.base_type 0)
        else
          some (attr + 3, be16At buf attr)
    else
      some (attr + 4 + name.length, be16At buf attr - name.length - 1)

/-- `udict_inline_get` as observed by a caller that reads the `size` returned
bytes through the returned pointer. -/
def udict_get_bytes (buf name : List Nat) (ty : Nat) : Option (List Nat) :=
  match udict_inline_get_pos buf name ty with
  | none => none
  | some (pos, size) => some ((buf.drop pos).take size)

/-- Manager parameters of `udict_inline_mgr` (`min_size`, `extra_size`). -/
structure UdictMgr where
  min_size : Nat
  extra_size : Nat

/-- An inline udict: used bytes (`buf`, of length `inl->size`) and allocated
capacity (`cap` = `umem_size`). -/
structure Udict where
  buf : List Nat
  cap : Nat
deriving DecidableEq

/-- `udict_inline_alloc`: reserve at least `max(size, min_size)` bytes and
install the `end` sentinel; the used region is the single END byte. -/
def udict_inline_alloc (mgr : UdictMgr) (size : Nat) : Udict :=
  { buf := [UDICT_TYPE_END],
    cap := if size < mgr.min_size then mgr.min_size else size }

/-- `udict_inline_delete`: locate the attribute and shift the tail of the
buffer down over it (`memmove`); returns whether it existed.  (For a found
attribute in a well-formed dictionary `udict_inline_next` never fails; the
`none` fallback mirrors the C undefined behaviour on corrupt buffers by
leaving the dictionary unchanged.) -/
def udict_inline_delete (d : Udict) (name : List Nat) (ty : Nat) :
    Bool × Udict :=
  match udict_inline_find d.buf name ty with
  | none => (false, d)
  | some attr =>
    match udict_inline_next d.buf attr with
    | none => (false, d)
    | some e => (true, { d with buf := d.buf.take attr ++ d.buf.drop e })

/-- Overwrite `v.length` bytes of `buf` starting at `pos` (a caller writing
through the pointer returned by set). -/
def writeBytes (buf : List Nat) (pos : Nat) (v : List Nat) : List Nat :=
  buf.take pos ++ v ++ buf.drop (pos + v.length)

/-- Appending branch of `udict_inline_set`: grow the capacity when the new
total would exceed it, write the attribute header and value over the old END
byte and re-install the sentinel. -/
def udict_inline_append (mgr : UdictMgr) (d : Udict) (name : List Nat)
    (ty : Nat) (value : List Nat) (shorthand : Option InlineShorthand) : Udict :=
  let attr_size := value.length
  let header_size : Nat :=
    match shorthand with
    | some sh => if isVarBase sh.base_type then 3 else 1
    | none => 3 + name.length + 1
  let total_size := (d.buf.length - 1) + header_size + attr_size + 1
  let cap' := if d.cap ≤ total_size then total_size + mgr.extra_size else d.cap
  let header : List Nat :=
    match shorthand with
    | none =>
      let size := name.length + 1 + attr_size
      ty :: (size / 256) :: (size % 256) :: (name ++ [0])
    | some sh =>
      if isVarBase sh.base_type then [ty, attr_size / 256, attr_size % 256]
      else [ty]
  { buf := d.buf.dropLast ++ header ++ value ++ [UDICT_TYPE_END], cap := cap' }

/-- `udict_inline_set` combined with the caller writing the `value` bytes
through the returned pointer; `none` corresponds to the C function returning
false on an unknown shorthand (`umem_realloc` is modelled as succeeding). -/
def udict_inline_set (mgr : UdictMgr) (d : Udict) (name : List Nat) (ty : Nat)
    (value : List Nat) : Option Udict :=
  let attr_size := value.length
  let resolved : Option (Option InlineShorthand × Nat) :=
    if UDICT_TYPE_SHORTHAND < ty then
      match udict_inline_shorthand ty with
      | none => none
      | some sh => some (some sh, sh.base_type)
    else some (none, ty)
  match resolved with
  | none => none
  | some (shorthand, base_type) =>
    match udict_inline_get_pos d.buf name ty with
    | some (pos, current_size) =>
      if ¬(isVarBase base_type = true) ∨ current_size = attr_size then
        some { d with buf := writeBytes d.buf pos value }
      else if base_type = UDICT_TYPE_STRING ∧ attr_size < current_size then
        let zeroed := writeBytes d.buf (pos + attr_size)
          (List.replicate (current_size - attr_size) 0)
        some { d with buf := writeBytes zeroed pos value }
      else
        some (udict_inline_append mgr (udict_inline_delete d name ty).2
          name ty value shorthand)
    | none => some (udict_inline_append mgr d name ty value shorthand)

/-- `udict_inline_name`: resolve a shorthand code to its (name, base type). -/
def udict_inline_name (ty : Nat) : Option (List Nat × Nat) :=
  if ty ≤ UDICT_TYPE_SHORTHAND then none
  else
    match udict_inline_shorthand ty with
    | none => none
    | some sh => some (sh.name, sh.base_type)

/-- NUL-terminated string read at a buffer position (the name exposed by
`udict_inline_iterate` through `name_p`); `fuel` is a termination device. -/
def cstrReadLoop (buf : List Nat) : Nat → Nat → List Nat
  | 0, _ => []
  | fuel + 1, pos =>
    if byteAt buf pos = 0 then []
    else byteAt buf pos :: cstrReadLoop buf fuel (pos + 1)

/-- NUL-terminated string read with ample fuel. -/
def cstrRead (buf : List Nat) (pos : Nat) : List Nat :=
  cstrReadLoop buf (buf.length + 1) pos

/-- Cursor output of `udict_inline_iterate` at attribute position `a`: END
cursor at the sentinel, `(none, type)` for a shorthand, `(name, type)`
otherwise. -/
def readCursor (buf : List Nat) (a : Nat) : Option (List Nat) × Nat :=
  let t := byteAt buf a
  if t = UDICT_TYPE_END then (none, UDICT_TYPE_END)
  else if UDICT_TYPE_SHORTHAND < t then (none, t)
  else (some (cstrRead buf (a + 3)), t)

/-- `udict_inline_iterate`: advance the (name, type) cursor; a cursor with
type `UDICT_TYPE_END` denotes the start (and the end) of the iteration. -/
def udict_inline_iterate (buf : List Nat) (cursor : Option (List Nat) × Nat) :
    Option (List Nat) × Nat :=
  let attrOpt : Option Nat :=
    if cursor.2 ≠ UDICT_TYPE_END then
      match udict_inline_find buf (cursor.1.getD []) cursor.2 with
      | none => none
      | some a => udict_inline_next buf a
    else some 0
  match attrOpt with
  | none => (none, UDICT_TYPE_END)
  | some a => readCursor buf a

/-- Cursor list produced by iterating from the start until the END cursor. -/
def iterateListLoop (buf : List Nat) :
    Nat → (Option (List Nat) × Nat) → List (Option (List Nat) × Nat)
  | 0, _ => []
  | fuel + 1, cursor =>
    let c := udict_inline_iterate buf cursor
    if c.2 = UDICT_TYPE_END then []
    else c :: iterateListLoop buf fuel c

/-- Full iteration of a dictionary buffer. -/
def udict_iterate_list (buf : List Nat) : List (Option (List Nat) × Nat) :=
  iterateListLoop buf (buf.length + 1) (none, UDICT_TYPE_END)

/-! #### Abstract view: entry lists

The decoding of a well-formed dictionary buffer used by the refinement
theorems: a list of entries (type code, name bytes — empty for shorthands —
and value bytes) laid out back to back, terminated by the END sentinel. -/

/-- One decoded attribute. -/
structure UdictEntry where
  ty : Nat
  name : List Nat
  value : List Nat
deriving DecidableEq

/-- Match test of `udict_inline_find` against a decoded entry. -/
def entryMatches (e : UdictEntry) (name : List Nat) (ty : Nat) : Bool :=
  decide (e.ty = ty) && (decide (UDICT_TYPE_SHORTHAND < ty) || decide (e.name = name))

/-- Bytes of an entry after its type code. -/
def entryRest (e : UdictEntry) : List Nat :=
  if UDICT_TYPE_SHORTHAND < e.ty then
    match udict_inline_shorthand e.ty with
    | some sh =>
      if isVarBase sh.base_type then
        (e.value.length / 256) :: (e.value.length % 256) :: e.value
      else e.value
    | none => []
  else
    let s := e.name.length + 1 + e.value.length
    (s / 256) :: (s % 256) :: (e.name ++ [0] ++ e.value)

/-- Wire encoding of one entry. -/
def encodeEntry (e : UdictEntry) : List Nat := e.ty :: entryRest e

/-- Wire encoding of an entry list. -/
def encodeEntries (es : List UdictEntry) : List Nat :=
  (es.map encodeEntry).flatten

/-- Header bytes of an entry (everything before the value bytes). -/
def encodeHeader (e : UdictEntry) : List Nat :=
  if UDICT_TYPE_SHORTHAND < e.ty then
    match udict_inline_shorthand e.ty with
    | some sh =>
      if isVarBase sh.base_type then
        [e.ty, e.value.length / 256, e.value.length % 256]
      else [e.ty]
    | none => [e.ty]
  else
    let s := e.name.length + 1 + e.value.length
    e.ty :: (s / 256) :: (s % 256) :: (e.name ++ [0])

/-- Byte offset of the value inside an encoded entry. -/
def entryValueOff (e : UdictEntry) : Nat := (encodeHeader e).length

/-- Validity of a name: nonzero bytes below 256. -/
def validName (n : List Nat) : Bool :=
  n.all fun b => decide (0 < b) && decide (b < 256)

/-- Validity of a decoded entry: byte-ranged value, known shorthand with the
right width (fixed base) or a length fitting 16 bits (variable base), or a
basic type with a valid name and a 16-bit length field. -/
def validEntry (e : UdictEntry) : Bool :=
  (e.value.all fun b => decide (b < 256)) &&
  (if UDICT_TYPE_SHORTHAND < e.ty then
    match udict_inline_shorthand e.ty with
    | none => false
    | some sh =>
      decide (e.name = ([] : List Nat)) &&
      (if isVarBase sh.base_type then decide (e.value.length < 65536)
       else decide (e.value.length = attr_sizes.getD sh.base_type 0))
   else
    decide (0 < e.ty) && validName e.name &&
      decide (e.name.length + 1 + e.value.length < 65536))

/-- Key validity of an operation: the name is a NUL-free byte string (it is a
C string in the API) and the type is a known shorthand or a nonzero basic
type. -/
def validKey (n : List Nat) (t : Nat) : Bool :=
  validName n &&
    (if UDICT_TYPE_SHORTHAND < t then !(udict_inline_shorthand t).isNone
     else decide (0 < t))

/-- Distinctness of two entry keys (the invariant "no two entries share the
same (name, type)"). -/
def entryKeyDistinct (a b : UdictEntry) : Prop :=
  ¬(a.ty = b.ty ∧ (UDICT_TYPE_SHORTHAND < a.ty ∨ a.name = b.name))

/-- Well-formedness of a dictionary: its used bytes are the encoding of `es`
followed by the END sentinel, every entry is valid, and keys are pairwise
distinct. -/
def wfUdict (d : Udict) (es : List UdictEntry) : Prop :=
  d.buf = encodeEntries es ++ [UDICT_TYPE_END] ∧
  (∀ e ∈ es, validEntry e = true) ∧
  es.Pairwise entryKeyDistinct

/-- The entry written by a set: shorthands drop the name. -/
def mkEntry (name : List Nat) (ty : Nat) (value : List Nat) : UdictEntry :=
  if UDICT_TYPE_SHORTHAND < ty then ⟨ty, [], value⟩ else ⟨ty, name, value⟩

/-- Cursor exposed by `udict_inline_iterate` for a decoded entry. -/
def entryCursor (e : UdictEntry) : Option (List Nat) × Nat :=
  (if UDICT_TYPE_SHORTHAND < e.ty then none else some e.name, e.ty)

/-- Cursor of the first entry of a list, or the END cursor. -/
def headCursor (es : List UdictEntry) : Option (List Nat) × Nat :=
  match es with
  | [] => (none, UDICT_TYPE_END)
  | e :: _ => entryCursor e

/-- Abstract effect of `udict_inline_delete`: remove the first matching
entry. -/
def absDel (name : List Nat) (ty : Nat) : List UdictEntry → List UdictEntry
  | [] => []
  | e :: es => if entryMatches e name ty then es else e :: absDel name ty es

/-- A dictionary operation: set (with the value bytes) or delete. -/
inductive DOp where
  | dset (name : List Nat) (ty : Nat) (value : List Nat)
  | ddel (name : List Nat) (ty : Nat)

/-- Concrete application of one operation (the C entry points). -/
def applyOp (mgr : UdictMgr) (d : Udict) : DOp → Option Udict
  | DOp.dset n t v => udict_inline_set mgr d n t v
  | DOp.ddel n t => some (udict_inline_delete d n t).2

/-- Concrete application of an operation sequence. -/
def applyOps (mgr : UdictMgr) : Udict → List DOp → Option Udict
  | d, [] => some d
  | d, op :: rest =>
    match applyOp mgr d op with
    | none => none
    | some d' => applyOps mgr d' rest

/-- Abstract application of an operation sequence on decoded entries. -/
def absApply : List UdictEntry → List DOp → List UdictEntry
  | es, [] => es
  | es, DOp.dset n t v :: rest => absApply (es ++ [mkEntry n t v]) rest
  | es, DOp.ddel n t :: rest => absApply (absDel n t es) rest

/-- Whether a later operation of the sequence deletes the entry. -/
def delMatched (ops : List DOp) (e : UdictEntry) : Bool :=
  ops.any fun op =>
    match op with
    | DOp.ddel n t => entryMatches e n t
    | _ => false

/-- The surviving entries of an operation sequence, in insertion order: the
entries set and not subsequently deleted. -/
def survivors : List DOp → List UdictEntry
  | [] => []
  | DOp.dset n t v :: rest =>
    let e := mkEntry n t v
    if delMatched rest e then survivors rest else e :: survivors rest
  | DOp.ddel _ _ :: rest => survivors rest

/-- Validity of one operation. -/
def validOp : DOp → Bool
  | DOp.dset n t v => validKey n t && validEntry (mkEntry n t v)
  | DOp.ddel n t => validKey n t

/-- Key equality as used for the "distinct (name, type) pairs" hypothesis. -/
def keysMatch (k1 k2 : List Nat × Nat) : Bool :=
  decide (k1.2 = k2.2) &&
    (decide (UDICT_TYPE_SHORTHAND < k1.2) || decide (k1.1 = k2.1))

/-- Pairwise distinctness of the keys of the set operations. -/
def distinctSetKeys : List DOp → Bool
  | [] => true
  | DOp.dset n t _ :: rest =>
    (rest.all fun op =>
      match op with
      | DOp.dset n' t' _ => !(keysMatch (n, t) (n', t'))
      | _ => true) && distinctSetKeys rest
  | DOp.ddel _ _ :: rest => distinctSetKeys rest

/-- Validity of an operation sequence: every operation valid and the set keys
pairwise distinct. -/
def validOps (ops : List DOp) : Bool :=
  (ops.all validOp) && distinctSetKeys ops

/-- Position of the END sentinel reached by decoding the buffer from the
start, `none` when the decoding derails before reaching a sentinel. -/
def endWalkLoop (buf : List Nat) : Nat → Nat → Option Nat
  | 0, _ => none
  | fuel + 1, attr =>
    if byteAt buf attr = UDICT_TYPE_END then some attr
    else
      match udict_inline_next buf attr with
      | none => none
      | some n => endWalkLoop buf fuel n

/-- Position of the END sentinel reached from the start of the buffer. -/
def endWalk (buf : List Nat) : Option Nat :=
  endWalkLoop buf (buf.length + 1) 0

/-- Concrete operation sequence for the round-trip check: two sets with
distinct keys (a string attribute and the `f.disc` shorthand) followed by a
delete of the string attribute. -/
def c2ops : List DOp :=
  [DOp.dset [97] UDICT_TYPE_STRING [65, 66],
   DOp.dset [] (UDICT_TYPE_SHORTHAND + 1) [],
   DOp.ddel [97] UDICT_TYPE_STRING]

/-- Concrete operation sequence for the sentinel check: a set that grows a
minimal buffer, then a delete. -/
def c5ops : List DOp :=
  [DOp.dset [98] UDICT_TYPE_STRING [67, 68, 69],
   DOp.ddel [98] UDICT_TYPE_STRING]

/-! ## Theorems -/

/-- Claim C4: the duration computed by the code equals the spec's duration
formula, for every valid picture structure (top field, bottom field or frame
picture). -/
theorem duration_matches_spec (ps : Bool) (num den : Nat) (ext : Option PicExt)
    (hvalid : ∀ e, ext = some e →
      e.picStruct = MP2VPICX_TOP_FIELD ∨ e.picStruct = MP2VPICX_BOTTOM_FIELD ∨
      e.picStruct = MP2VPICX_FRAME_PICTURE) :
    upipe_mp2vf_duration ps num den ext = durationSpec ps num den ext := by
  cases ext with
  | none => rfl
  | some e =>
    have h := hvalid e rfl
    cases ps with
    | true =>
      by_cases hr : e.rff <;>
        simp [upipe_mp2vf_duration, durationSpec, UCLOCK_FREQ, hr]
    | false =>
      rcases h with h | h | h <;>
        by_cases hr : e.rff <;>
          simp [upipe_mp2vf_duration, durationSpec, UCLOCK_FREQ, h,
            MP2VPICX_TOP_FIELD, MP2VPICX_BOTTOM_FIELD, MP2VPICX_FRAME_PICTURE, hr]

/-- Witness for `duration_matches_spec` at a concrete input: interlaced
sequence, frame picture with RFF, 30000/1001 fps. -/
theorem duration_matches_spec_witness :
    (∀ e, some (PicExt.mk MP2VPICX_FRAME_PICTURE true true) = some e →
      e.picStruct = MP2VPICX_TOP_FIELD ∨ e.picStruct = MP2VPICX_BOTTOM_FIELD ∨
      e.picStruct = MP2VPICX_FRAME_PICTURE) ∧
    upipe_mp2vf_duration false 30000 1001
        (some (PicExt.mk MP2VPICX_FRAME_PICTURE true true)) =
      durationSpec false 30000 1001
        (some (PicExt.mk MP2VPICX_FRAME_PICTURE true true)) := by
  refine ⟨by decide, duration_matches_spec false 30000 1001 _ (by decide)⟩

/-- Claim C9: the published picture number equals `last_picture_number +
(temporal_reference - last_temporal_reference)` (exactly, under the no-wrap
conditions that hold in practice: the signed difference does not underflow the
unsigned counter and the result fits in 64 bits), and the two state variables
are advanced to the new values exactly when `temporal_reference >
last_temporal_reference`, being left unchanged otherwise. -/
theorem picture_number_correct (lpn : Nat) (ltr : Int) (tr : Nat)
    (hno_underflow : (0 : Int) ≤ (lpn : Int) + ((tr : Int) - ltr))
    (hno_overflow : (lpn : Int) + ((tr : Int) - ltr) < 2 ^ 64) :
    ((upipe_mp2vf_picture_number lpn ltr tr).picture_number : Int) =
      (lpn : Int) + ((tr : Int) - ltr) ∧
    ((tr : Int) > ltr →
      (upipe_mp2vf_picture_number lpn ltr tr).last_picture_number =
        (upipe_mp2vf_picture_number lpn ltr tr).picture_number ∧
      (upipe_mp2vf_picture_number lpn ltr tr).last_temporal_reference = (tr : Int)) ∧
    (¬((tr : Int) > ltr) →
      (upipe_mp2vf_picture_number lpn ltr tr).last_picture_number = lpn ∧
      (upipe_mp2vf_picture_number lpn ltr tr).last_temporal_reference = ltr) := by
  have hmod : ((lpn : Int) + ((tr : Int) - ltr)) % (2 ^ 64 : Int) =
      (lpn : Int) + ((tr : Int) - ltr) :=
    Int.emod_emod_of_dvd _ (dvd_refl _) ▸ Int.emod_eq_of_lt hno_underflow hno_overflow
  constructor
  · unfold upipe_mp2vf_picture_number
    by_cases h : (tr : Int) > ltr <;>
      simp only [h, if_pos, if_neg, not_true, not_false_iff] <;>
      · show (((((lpn : Int) + ((tr : Int) - ltr)) % (2 ^ 64 : Int)).toNat : Int)) = _
        rw [hmod, Int.toNat_of_nonneg hno_underflow]
  · constructor
    · intro h
      unfold upipe_mp2vf_picture_number
      simp [h]
    · intro h
      unfold upipe_mp2vf_picture_number
      simp [h]

/-- Witness for `picture_number_correct` at a concrete input: IBBP pattern
step with last picture number 0, last temporal reference -1, incoming temporal
reference 2. -/
theorem picture_number_correct_witness :
    ((0 : Int) ≤ ((0 : Nat) : Int) + (((2 : Nat) : Int) - (-1 : Int))) ∧
    (((0 : Nat) : Int) + (((2 : Nat) : Int) - (-1 : Int)) < 2 ^ 64) ∧
    (((upipe_mp2vf_picture_number 0 (-1) 2).picture_number : Int) =
      ((0 : Nat) : Int) + (((2 : Nat) : Int) - (-1 : Int)) ∧
    (((2 : Nat) : Int) > (-1 : Int) →
      (upipe_mp2vf_picture_number 0 (-1) 2).last_picture_number =
        (upipe_mp2vf_picture_number 0 (-1) 2).picture_number ∧
      (upipe_mp2vf_picture_number 0 (-1) 2).last_temporal_reference = ((2 : Nat) : Int)) ∧
    (¬(((2 : Nat) : Int) > (-1 : Int)) →
      (upipe_mp2vf_picture_number 0 (-1) 2).last_picture_number = 0 ∧
      (upipe_mp2vf_picture_number 0 (-1) 2).last_temporal_reference = (-1 : Int))) :=
  ⟨by decide, by decide, picture_number_correct 0 (-1) 2 (by decide) (by decide)⟩

/-- Helper lemma: the sum of the first `j+1` elements is the sum of the first
`j` plus the element at index `j`. -/
theorem sum_take_succ_getD (l : List Nat) (j : Nat) (hj : j < l.length) :
    (l.take (j + 1)).sum = (l.take j).sum + l.getD j 0 := by
  have h1 : l[j]? = some l[j] := List.getElem?_eq_getElem hj
  rw [List.take_succ, List.sum_append, h1, List.getD_eq_getElem _ _ hj]
  simp

/-- Helper for claim C3: along `emitRun`, a present DTS register advances by
exactly the durations, so the emitted `dts` attributes are the partial sums. -/
theorem emitRun_dts (durs : List Nat) : ∀ (r : NextFrameTS) (d : Nat),
    r.dts = d → d < UINT64_MAX → d + durs.sum < UINT64_MAX →
    ∀ j, j < durs.length →
      ∃ a, (emitRun r durs).1.get? j = some a ∧
        a.dts = some (d + (durs.take j).sum) := by
  induction durs with
  | nil => intro r d _ _ _ j hj; exact absurd hj (by simp)
  | cons dur rest ih =>
    intro r d hr hd hsum j hj
    have hdU : r.dts ≠ UINT64_MAX := by rw [hr]; exact Nat.ne_of_lt hd
    have hddur : d + dur + rest.sum < UINT64_MAX := by
      have : d + (dur :: rest).sum = d + dur + rest.sum := by
        simp [List.sum_cons]; ring
      rw [← this]; exact hsum
    have hlt2 : d + dur < 18446744073709551616 := by
      have h1 : d + dur < UINT64_MAX :=
        Nat.lt_of_le_of_lt (Nat.le_add_right _ _) hddur
      have h2 : UINT64_MAX < 18446744073709551616 := by decide
      exact Nat.lt_trans h1 h2
    have hmod : (d + dur) % 2 ^ 64 = d + dur := Nat.mod_eq_of_lt (by
      show d + dur < 2 ^ 64
      omega)
    cases j with
    | zero =>
      refine ⟨upipe_mp2vf_set_timestamps r ClockAttrs.empty, ?_, ?_⟩
      · simp [emitRun, upipe_mp2vf_emit_ts]
      · simp [upipe_mp2vf_set_timestamps, hdU, hr, hd.ne]
    | succ j' =>
      have hj' : j' < rest.length := by simpa using hj
      have hr' : (upipe_mp2vf_increment_dts (upipe_mp2vf_flush_pts r) dur).dts
          = d + dur := by
        simp only [upipe_mp2vf_increment_dts, upipe_mp2vf_flush_pts]
        simp [hr, hd.ne, hmod, hlt2]
      have hd' : d + dur < UINT64_MAX :=
        Nat.lt_of_le_of_lt (Nat.le_add_right _ _) hddur
      obtain ⟨a, ha, hadts⟩ :=
        ih (upipe_mp2vf_increment_dts (upipe_mp2vf_flush_pts r) dur) (d + dur)
          hr' hd' hddur j' hj'
      refine ⟨a, ?_, ?_⟩
      · simpa [emitRun, upipe_mp2vf_emit_ts] using ha
      · rw [hadts]; congr 1; simp [List.sum_cons]; ring

/-- Claim C3: (i) each of the six output clock attributes equals the
corresponding register when present and is deleted when the register holds the
sentinel; (ii) after emission the three PTS registers are the sentinel and
every present DTS register is advanced by the duration; (iii) consequently,
over a run of emissions with no intervening promotion the output `dts`
attributes are the strictly increasing partial sums `d + sum (take j durs)`,
advancing by exactly the duration of each frame. -/
theorem timestamp_propagation (r : NextFrameTS) (u : ClockAttrs) (dur d : Nat)
    (durs : List Nat) (j : Nat)
    (hr : r.dts = d) (hd : d < UINT64_MAX) (hsum : d + durs.sum < UINT64_MAX)
    (hj : j + 1 < durs.length) (hpos : 0 < durs.getD j 0) :
    ((upipe_mp2vf_emit_ts r u dur).1 =
      { pts_orig := if r.pts_orig ≠ UINT64_MAX then some r.pts_orig else none
        pts := if r.pts ≠ UINT64_MAX then some r.pts else none
        pts_sys := if r.pts_sys ≠ UINT64_MAX then some r.pts_sys else none
        dts_orig := if r.dts_orig ≠ UINT64_MAX then some r.dts_orig else none
        dts := if r.dts ≠ UINT64_MAX then some r.dts else none
        dts_sys := if r.dts_sys ≠ UINT64_MAX then some r.dts_sys else none }) ∧
    ((upipe_mp2vf_emit_ts r u dur).2.pts_orig = UINT64_MAX ∧
     (upipe_mp2vf_emit_ts r u dur).2.pts = UINT64_MAX ∧
     (upipe_mp2vf_emit_ts r u dur).2.pts_sys = UINT64_MAX ∧
     (upipe_mp2vf_emit_ts r u dur).2.dts =
       (if r.dts ≠ UINT64_MAX then (r.dts + dur) % 2 ^ 64 else r.dts) ∧
     (upipe_mp2vf_emit_ts r u dur).2.dts_orig =
       (if r.dts_orig ≠ UINT64_MAX then (r.dts_orig + dur) % 2 ^ 64 else r.dts_orig) ∧
     (upipe_mp2vf_emit_ts r u dur).2.dts_sys =
       (if r.dts_sys ≠ UINT64_MAX then (r.dts_sys + dur) % 2 ^ 64 else r.dts_sys)) ∧
    (∃ a b, (emitRun r durs).1.get? j = some a ∧
      (emitRun r durs).1.get? (j + 1) = some b ∧
      a.dts = some (d + (durs.take j).sum) ∧
      b.dts = some (d + (durs.take j).sum + durs.getD j 0) ∧
      d + (durs.take j).sum < d + (durs.take j).sum + durs.getD j 0) := by
  refine ⟨rfl, ⟨rfl, rfl, rfl, rfl, rfl, rfl⟩, ?_⟩
  have hjlt : j < durs.length := Nat.lt_of_succ_lt hj
  obtain ⟨a, ha, hadts⟩ := emitRun_dts durs r d hr hd hsum j hjlt
  obtain ⟨b, hb, hbdts⟩ := emitRun_dts durs r d hr hd hsum (j + 1) hj
  refine ⟨a, b, ha, hb, hadts, ?_, by omega⟩
  rw [hbdts, sum_take_succ_getD durs j hjlt, ← Nat.add_assoc]

/-- Witness for `timestamp_propagation` at a concrete input: initial DTS 1000,
three frames of 1080000 ticks each, frames 0 and 1. -/
theorem timestamp_propagation_witness :
    (tsWitnessRegs.dts = 1000) ∧
    ((1000 : Nat) < UINT64_MAX) ∧
    ((1000 : Nat) + ([1080000, 1080000, 1080000] : List Nat).sum < UINT64_MAX) ∧
    ((0 : Nat) + 1 < ([1080000, 1080000, 1080000] : List Nat).length) ∧
    ((0 : Nat) < ([1080000, 1080000, 1080000] : List Nat).getD 0 0) ∧
    (∃ a b, (emitRun tsWitnessRegs [1080000, 1080000, 1080000]).1.get? 0 = some a ∧
      (emitRun tsWitnessRegs [1080000, 1080000, 1080000]).1.get? 1 = some b ∧
      a.dts = some (1000 + (([1080000, 1080000, 1080000] : List Nat).take 0).sum) ∧
      b.dts = some (1000 + (([1080000, 1080000, 1080000] : List Nat).take 0).sum +
        ([1080000, 1080000, 1080000] : List Nat).getD 0 0) ∧
      1000 + (([1080000, 1080000, 1080000] : List Nat).take 0).sum <
        1000 + (([1080000, 1080000, 1080000] : List Nat).take 0).sum +
          ([1080000, 1080000, 1080000] : List Nat).getD 0 0) := by
  refine ⟨by decide, by decide, by decide, by decide, by decide, ?_⟩
  exact (timestamp_propagation tsWitnessRegs ClockAttrs.empty 0 1000
    [1080000, 1080000, 1080000] 0 (by decide) (by decide) (by decide)
    (by decide) (by decide)).2.2

/-- Helper for claim C10: an absent DTS register stays absent and attributes
stay deleted along any run whose promoted urefs never carry a DTS. -/
theorem runTS_absent_dts (ops : List TSOp) : ∀ (r : NextFrameTS),
    r.dts_orig = UINT64_MAX → r.dts = UINT64_MAX → r.dts_sys = UINT64_MAX →
    (∀ u, TSOp.promote u ∈ ops →
      u.dts_orig = none ∧ u.dts = none ∧ u.dts_sys = none) →
    (∀ a ∈ (runTS r ops).1, a.dts_orig = none ∧ a.dts = none ∧ a.dts_sys = none) ∧
    ((runTS r ops).2.dts_orig = UINT64_MAX ∧ (runTS r ops).2.dts = UINT64_MAX ∧
     (runTS r ops).2.dts_sys = UINT64_MAX) := by
  induction ops with
  | nil => intro r h1 h2 h3 _; exact ⟨by simp [runTS], h1, h2, h3⟩
  | cons op rest ih =>
    intro r h1 h2 h3 hps
    cases op with
    | promote u =>
      have hu := hps u (List.mem_cons_self _ _)
      have := ih (upipe_mp2vf_promote_uref r u)
        (by simp [upipe_mp2vf_promote_uref, hu.1, h1])
        (by simp [upipe_mp2vf_promote_uref, hu.2.1, h2])
        (by simp [upipe_mp2vf_promote_uref, hu.2.2, h3])
        (fun u' hu' => hps u' (List.mem_cons_of_mem _ hu'))
      simpa [runTS] using this
    | emit dur =>
      have hstep1 : (upipe_mp2vf_emit_ts r ClockAttrs.empty dur).2.dts_orig
          = UINT64_MAX := by
        simp [upipe_mp2vf_emit_ts, upipe_mp2vf_increment_dts,
          upipe_mp2vf_flush_pts, h1]
      have hstep2 : (upipe_mp2vf_emit_ts r ClockAttrs.empty dur).2.dts
          = UINT64_MAX := by
        simp [upipe_mp2vf_emit_ts, upipe_mp2vf_increment_dts,
          upipe_mp2vf_flush_pts, h2]
      have hstep3 : (upipe_mp2vf_emit_ts r ClockAttrs.empty dur).2.dts_sys
          = UINT64_MAX := by
        simp [upipe_mp2vf_emit_ts, upipe_mp2vf_increment_dts,
          upipe_mp2vf_flush_pts, h3]
      have hrest := ih (upipe_mp2vf_emit_ts r ClockAttrs.empty dur).2
        hstep1 hstep2 hstep3 (fun u' hu' => hps u' (List.mem_cons_of_mem _ hu'))
      constructor
      · intro a ha
        simp only [runTS] at ha
        rcases List.mem_cons.1 ha with rfl | ha'
        · exact ⟨by simp [upipe_mp2vf_emit_ts, upipe_mp2vf_set_timestamps, h1],
            by simp [upipe_mp2vf_emit_ts, upipe_mp2vf_set_timestamps, h2],
            by simp [upipe_mp2vf_emit_ts, upipe_mp2vf_set_timestamps, h3]⟩
        · exact hrest.1 a ha'
      · simpa [runTS] using hrest.2

/-- Claim C10: a DTS register holding the sentinel is left unchanged by
`upipe_mp2vf_increment_dts`, and over any run of promotions and emissions
starting from absent DTS registers in which no input uref carries a DTS,
every emitted frame has all three DTS attributes deleted and the registers
remain absent — the framer never invents a finite DTS. -/
theorem absent_dts_preserved (r0 : NextFrameTS) (dur0 : Nat) (r : NextFrameTS)
    (ops : List TSOp)
    (h0 : r0.dts_orig = UINT64_MAX ∧ r0.dts = UINT64_MAX ∧ r0.dts_sys = UINT64_MAX)
    (h1 : r.dts_orig = UINT64_MAX) (h2 : r.dts = UINT64_MAX)
    (h3 : r.dts_sys = UINT64_MAX)
    (hps : ∀ u, TSOp.promote u ∈ ops →
      u.dts_orig = none ∧ u.dts = none ∧ u.dts_sys = none) :
    ((upipe_mp2vf_increment_dts r0 dur0).dts_orig = UINT64_MAX ∧
     (upipe_mp2vf_increment_dts r0 dur0).dts = UINT64_MAX ∧
     (upipe_mp2vf_increment_dts r0 dur0).dts_sys = UINT64_MAX) ∧
    (∀ a ∈ (runTS r ops).1, a.dts_orig = none ∧ a.dts = none ∧ a.dts_sys = none) ∧
    ((runTS r ops).2.dts_orig = UINT64_MAX ∧ (runTS r ops).2.dts = UINT64_MAX ∧
     (runTS r ops).2.dts_sys = UINT64_MAX) := by
  refine ⟨⟨?_, ?_, ?_⟩, ?_⟩
  · simp [upipe_mp2vf_increment_dts, h0.1]
  · simp [upipe_mp2vf_increment_dts, h0.2.1]
  · simp [upipe_mp2vf_increment_dts, h0.2.2]
  · exact runTS_absent_dts ops r h1 h2 h3 hps

/-- Witness for `absent_dts_preserved` at a concrete input: fresh registers
(all sentinel), one promotion carrying only a PTS, then one emission. -/
theorem absent_dts_preserved_witness :
    (tsAbsentRegs.dts_orig = UINT64_MAX ∧ tsAbsentRegs.dts = UINT64_MAX ∧
     tsAbsentRegs.dts_sys = UINT64_MAX) ∧
    (∀ a ∈ (runTS tsAbsentRegs
        [TSOp.promote ptsOnlyAttrs, TSOp.emit 1080000]).1,
      a.dts_orig = none ∧ a.dts = none ∧ a.dts_sys = none) := by
  have h := absent_dts_preserved tsAbsentRegs 7 tsAbsentRegs
    [TSOp.promote ptsOnlyAttrs, TSOp.emit 1080000]
    ⟨rfl, rfl, rfl⟩ rfl rfl rfl
    (by
      intro u hu
      have hu' : u = ptsOnlyAttrs := by simpa using hu
      rw [hu']; exact ⟨rfl, rfl, rfl⟩)
  exact ⟨⟨rfl, rfl, rfl⟩, h.2.1⟩

/-- Helper for claim C8: once set, `got_discontinuity` is never cleared by the
input path. -/
theorem inputRun_sticky (us : List Uref8) : ∀ (s : OctetStreamState),
    s.got_discontinuity = true → (inputRun s us).got_discontinuity = true := by
  induction us with
  | nil => intro s h; exact h
  | cons u rest ih =>
    intro s h
    have hstep : (upipe_mp2vf_input_data s u).got_discontinuity = true := by
      unfold upipe_mp2vf_input_data append_octet_stream
      by_cases hd : u.disc <;> by_cases hs : s.next_frame_slice <;>
        cases hn : s.next_uref <;> simp [hd, hs, hn, h]
    have : inputRun s (u :: rest) = inputRun (upipe_mp2vf_input_data s u) rest := rfl
    rw [this]
    exact ih _ hstep

/-- Claim C8: when an input uref carries `f.disc`, (i) if no slice start code
has been seen for the in-progress frame, the whole octet-stream queue (current
`next_uref` and pending urefs) is released before the new uref is promoted and
`got_discontinuity` is set, and it stays set through any further input
(cleared only when honored in an outgoing frame); (ii) otherwise the current
`next_uref` is marked `f.error`, the incoming uref is enqueued, and no queued
data is dropped. -/
theorem discontinuity_policy (s : OctetStreamState) (u n : Uref8)
    (us : List Uref8) (hd : u.disc = true) :
    (s.next_frame_slice = false →
      (upipe_mp2vf_input_data s u).next_uref = some u ∧
      (upipe_mp2vf_input_data s u).urefs = [] ∧
      (upipe_mp2vf_input_data s u).got_discontinuity = true ∧
      (inputRun (upipe_mp2vf_input_data s u) us).got_discontinuity = true) ∧
    (s.next_frame_slice = true → s.next_uref = some n →
      (upipe_mp2vf_input_data s u).next_uref = some { n with error := true } ∧
      (upipe_mp2vf_input_data s u).urefs = s.urefs ++ [u] ∧
      (upipe_mp2vf_input_data s u).got_discontinuity = s.got_discontinuity) := by
  constructor
  · intro hs
    have h1 : (upipe_mp2vf_input_data s u).next_uref = some u := by
      unfold upipe_mp2vf_input_data append_octet_stream
      simp [hd, hs]
    have h2 : (upipe_mp2vf_input_data s u).urefs = [] := by
      unfold upipe_mp2vf_input_data append_octet_stream
      simp [hd, hs]
    have h3 : (upipe_mp2vf_input_data s u).got_discontinuity = true := by
      unfold upipe_mp2vf_input_data append_octet_stream
      simp [hd, hs]
    exact ⟨h1, h2, h3, inputRun_sticky us _ h3⟩
  · intro hs hn
    refine ⟨?_, ?_, ?_⟩ <;>
      · unfold upipe_mp2vf_input_data append_octet_stream
        simp [hd, hs, hn]

/-- Witness for `discontinuity_policy` at a concrete input: a discontinuous
uref arriving while no slice has been seen, with one pending uref queued. -/
theorem discontinuity_policy_witness :
    ((Uref8.mk 3 true false).disc = true) ∧
    ((OctetStreamState.mk (some (Uref8.mk 1 false false)) [Uref8.mk 2 false false]
        false false).next_frame_slice = false →
      (upipe_mp2vf_input_data
        (OctetStreamState.mk (some (Uref8.mk 1 false false)) [Uref8.mk 2 false false]
          false false) (Uref8.mk 3 true false)).next_uref = some (Uref8.mk 3 true false) ∧
      (upipe_mp2vf_input_data
        (OctetStreamState.mk (some (Uref8.mk 1 false false)) [Uref8.mk 2 false false]
          false false) (Uref8.mk 3 true false)).urefs = [] ∧
      (upipe_mp2vf_input_data
        (OctetStreamState.mk (some (Uref8.mk 1 false false)) [Uref8.mk 2 false false]
          false false) (Uref8.mk 3 true false)).got_discontinuity = true ∧
      (inputRun (upipe_mp2vf_input_data
        (OctetStreamState.mk (some (Uref8.mk 1 false false)) [Uref8.mk 2 false false]
          false false) (Uref8.mk 3 true false))
        [Uref8.mk 4 false false]).got_discontinuity = true) :=
  ⟨by decide,
   (discontinuity_policy _ _ (Uref8.mk 1 false false) [Uref8.mk 4 false false]
      (by decide)).1⟩

/-- Soundness of the start-code scan: a found position is at or after the
scan origin, leaves room for the value byte, and holds the 00 00 01 pattern. -/
theorem findStartLoop_sound (s : List Nat) : ∀ (fuel i j : Nat),
    findStartLoop s fuel i = some j →
    i ≤ j ∧ j + 4 ≤ s.length ∧ byteAt s j = 0 ∧ byteAt s (j + 1) = 0 ∧
      byteAt s (j + 2) = 1 := by
  intro fuel
  induction fuel with
  | zero => intro i j h; simp [findStartLoop] at h
  | succ f ih =>
    intro i j h
    simp only [findStartLoop] at h
    by_cases h4 : i + 4 ≤ s.length
    · rw [if_pos h4] at h
      by_cases hp : byteAt s i = 0 ∧ byteAt s (i + 1) = 0 ∧ byteAt s (i + 2) = 1
      · rw [if_pos hp] at h
        cases h
        exact ⟨Nat.le_refl _, h4, hp.1, hp.2.1, hp.2.2⟩
      · rw [if_neg hp] at h
        obtain ⟨hle, rest⟩ := ih (i + 1) j h
        exact ⟨by omega, rest⟩
    · rw [if_neg h4] at h; cases h

/-- Soundness of `upipe_mp2vf_find`. -/
theorem upipe_mp2vf_find_sound (s : List Nat) (i j : Nat)
    (h : upipe_mp2vf_find s i = some j) :
    i ≤ j ∧ j + 4 ≤ s.length ∧ byteAt s j = 0 ∧ byteAt s (j + 1) = 0 ∧
      byteAt s (j + 2) = 1 :=
  findStartLoop_sound s (s.length + 1) i j h

/-- Helper: `byteAt` agrees with list indexing in bounds. -/
theorem byteAt_eq_getElem (s : List Nat) (i : Nat) (h : i < s.length) :
    byteAt s i = s[i] :=
  List.getD_eq_getElem s 0 h

/-- Helper: the first four bytes after dropping `i` are the bytes at
`i .. i+3`. -/
theorem drop_take_four (s : List Nat) (i : Nat) (h : i + 4 ≤ s.length) :
    (s.drop i).take 4 =
      [byteAt s i, byteAt s (i + 1), byteAt s (i + 2), byteAt s (i + 3)] := by
  have h0 : i < s.length := by omega
  have h1 : i + 1 < s.length := by omega
  have h2 : i + 2 < s.length := by omega
  have h3 : i + 3 < s.length := by omega
  apply List.ext_getElem
  · simp
    omega
  · intro n hn1 hn2
    have hn : n < 4 := by
      have := List.length_take 4 (s.drop i)
      simp at hn1
      omega
    have hlt : i + n < s.length := by omega
    rw [List.getElem_take, List.getElem_drop]
    interval_cases n
    · exact (byteAt_eq_getElem s i h0).symm
    · exact (byteAt_eq_getElem s (i + 1) h1).symm
    · exact (byteAt_eq_getElem s (i + 2) h2).symm
    · exact (byteAt_eq_getElem s (i + 3) h3).symm

/-- Claim C1 (amended): after sync is acquired, whenever the work loop emits
a frame, a picture start code had been seen in the current frame
(`next_frame_offset` set) and the terminating start code is neither an
extension nor a slice code; when the terminating code is end-of-sequence it
is included in the emitted frame, and any other terminating start code is
withheld and becomes the first bytes of the next frame.  Having seen a slice
start code is not among the necessary conditions; the counterexample shows an
emission without one. -/
theorem frame_boundary_amended (st st' : MState) (f : List Nat)
    (hstep : workStep st = some st')
    (hemit : st'.output = st.output ++ [f]) :
    st.acquired = true ∧ st.next_frame_offset ≠ none ∧
    ∃ i, upipe_mp2vf_find st.stream st.next_frame_size = some i ∧
      byteAt st.stream (i + 3) ≠ MP2VX_START_CODE ∧
      ¬(MP2VPIC_START_CODE < byteAt st.stream (i + 3) ∧
        byteAt st.stream (i + 3) ≤ MP2VPIC_LAST_CODE) ∧
      (byteAt st.stream (i + 3) = MP2VEND_START_CODE →
        f = st.stream.take (i + 4) ∧ st'.stream = st.stream.drop (i + 4)) ∧
      (byteAt st.stream (i + 3) ≠ MP2VEND_START_CODE →
        f = st.stream.take i ∧ st'.stream = st.stream.drop i ∧
        st'.stream.take 4 = [0, 0, 1, byteAt st.stream (i + 3)]) := by
  cases hfind : upipe_mp2vf_find st.stream st.next_frame_size with
  | none =>
    rw [workStep, hfind] at hstep
    cases hstep
  | some i =>
    obtain ⟨hle, hroom, hb0, hb1, hb2⟩ := upipe_mp2vf_find_sound _ _ _ hfind
    have htake4 : (st.stream.drop i).take 4 =
        [0, 0, 1, byteAt st.stream (i + 3)] := by
      rw [drop_take_four st.stream i hroom, hb0, hb1, hb2]
    simp only [workStep, hfind] at hstep
    by_cases hacq : st.acquired = false
    · -- pre-sync: nothing emitted, contradiction with hemit
      rw [if_pos hacq] at hstep
      by_cases hseq : byteAt st.stream (i + 3) = MP2VSEQ_START_CODE <;>
        [rw [if_pos hseq] at hstep; rw [if_neg hseq] at hstep] <;>
        · cases hstep
          simp at hemit
    · rw [if_neg hacq] at hstep
      have hacq' : st.acquired = true := by
        cases h : st.acquired
        · exact absurd h hacq
        · rfl
      by_cases hoff : st.next_frame_offset = none
      · -- no picture start code seen yet: nothing emitted
        rw [if_pos hoff] at hstep
        by_cases hpic : byteAt st.stream (i + 3) = MP2VPIC_START_CODE <;>
          [rw [if_pos hpic] at hstep; rw [if_neg hpic] at hstep] <;>
          · cases hstep
            simp at hemit
      · rw [if_neg hoff] at hstep
        by_cases hX : byteAt st.stream (i + 3) = MP2VX_START_CODE
        · rw [if_pos hX] at hstep
          cases hstep
          simp at hemit
        · rw [if_neg hX] at hstep
          by_cases hsl : MP2VPIC_START_CODE < byteAt st.stream (i + 3) ∧
              byteAt st.stream (i + 3) ≤ MP2VPIC_LAST_CODE
          · rw [if_pos hsl] at hstep
            cases hstep
            simp at hemit
          · rw [if_neg hsl] at hstep
            by_cases hr : (upipe_mp2vf_output_frame st.hdr
                st.next_frame_sequence (st.next_frame_offset.getD 0)
                (st.stream.take (if byteAt st.stream (i + 3) =
                  MP2VEND_START_CODE then i + 4 else i))).1 = false
            · -- validation failed: nothing emitted
              rw [if_pos hr] at hstep
              cases hstep
              simp at hemit
            · rw [if_neg hr] at hstep
              refine ⟨hacq', hoff, i, rfl, hX, hsl, ?_, ?_⟩
              · intro hend
                rw [if_pos hend] at hstep
                have hseq : byteAt st.stream (i + 3) ≠ MP2VSEQ_START_CODE := by
                  rw [hend]; decide
                have hgop : byteAt st.stream (i + 3) ≠ MP2VGOP_START_CODE := by
                  rw [hend]; decide
                have hpic : byteAt st.stream (i + 3) ≠ MP2VPIC_START_CODE := by
                  rw [hend]; decide
                rw [if_neg hseq, if_neg hgop, if_neg hpic, if_pos hend] at hstep
                cases hstep
                simp only [List.append_cancel_left_eq, List.cons.injEq,
                  and_true] at hemit
                exact ⟨hemit.symm, rfl⟩
              · intro hend
                rw [if_neg hend] at hstep
                by_cases hseq : byteAt st.stream (i + 3) = MP2VSEQ_START_CODE
                · rw [if_pos hseq] at hstep
                  cases hstep
                  simp only [List.append_cancel_left_eq, List.cons.injEq,
                    and_true] at hemit
                  exact ⟨hemit.symm, rfl, htake4⟩
                · rw [if_neg hseq] at hstep
                  by_cases hgop : byteAt st.stream (i + 3) = MP2VGOP_START_CODE
                  · rw [if_pos hgop] at hstep
                    cases hstep
                    simp only [List.append_cancel_left_eq, List.cons.injEq,
                      and_true] at hemit
                    exact ⟨hemit.symm, rfl, htake4⟩
                  · rw [if_neg hgop] at hstep
                    by_cases hpic : byteAt st.stream (i + 3) =
                        MP2VPIC_START_CODE
                    · rw [if_pos hpic] at hstep
                      cases hstep
                      simp only [List.append_cancel_left_eq, List.cons.injEq,
                        and_true] at hemit
                      exact ⟨hemit.symm, rfl, htake4⟩
                    · rw [if_neg hpic, if_neg hend] at hstep
                      cases hstep
                      simp only [List.append_cancel_left_eq, List.cons.injEq,
                        and_true] at hemit
                      exact ⟨hemit.symm, rfl, htake4⟩

/-- Witness for `frame_boundary_amended` at a concrete input: the emission
step on `c1Stream` (valid sequence and picture headers, no slice, terminated
by a GOP start code at offset 20). -/
theorem frame_boundary_amended_witness :
    workStep c1EmitState = some c1EmittedState ∧
    c1EmittedState.output = c1EmitState.output ++ [c1Frame] ∧
    (c1EmitState.acquired = true ∧ c1EmitState.next_frame_offset ≠ none ∧
      ∃ i, upipe_mp2vf_find c1EmitState.stream c1EmitState.next_frame_size =
          some i ∧
        byteAt c1EmitState.stream (i + 3) ≠ MP2VX_START_CODE ∧
        ¬(MP2VPIC_START_CODE < byteAt c1EmitState.stream (i + 3) ∧
          byteAt c1EmitState.stream (i + 3) ≤ MP2VPIC_LAST_CODE) ∧
        (byteAt c1EmitState.stream (i + 3) = MP2VEND_START_CODE →
          c1Frame = c1EmitState.stream.take (i + 4) ∧
          c1EmittedState.stream = c1EmitState.stream.drop (i + 4)) ∧
        (byteAt c1EmitState.stream (i + 3) ≠ MP2VEND_START_CODE →
          c1Frame = c1EmitState.stream.take i ∧
          c1EmittedState.stream = c1EmitState.stream.drop i ∧
          c1EmittedState.stream.take 4 =
            [0, 0, 1, byteAt c1EmitState.stream (i + 3)])) :=
  ⟨by decide, by decide,
   frame_boundary_amended c1EmitState c1EmittedState c1Frame (by decide)
     (by decide)⟩

/-- Counterexample to claim C1 as stated: on the concrete stream `c1Stream` —
a fully parseable 12-byte sequence header and 8-byte picture header followed
by a GOP start code, with no slice start code anywhere — the framer validates
the headers and emits the 20-byte frame ending immediately before the GOP
start code, even though no slice start code has followed the picture start
code, contradicting the claim that such a frame is emitted only when at least
one slice start code has been seen. -/
theorem frame_boundary_counterexample :
    hasSliceStartCode c1Stream = false ∧
    (workRun 6 (mp2vfInit c1Stream)).output = [c1Frame] ∧
    (workRun 6 (mp2vfInit c1Stream)).stream = [0, 0, 1, MP2VGOP_START_CODE] ∧
    (c1Frame.drop 12).take 4 = [0, 0, 1, MP2VPIC_START_CODE] ∧
    c1Frame.length = 20 := by
  decide

/-- Claim C6 (code bug): the canonical table has 31 entries and the name
operation resolves positions 1..31 to the table entries in order, but the C
bound check `type > UDICT_TYPE_SHORTHAND + 1 + 31` fails to reject position
32: `shorthandRejected` is false there while index 31 is out of the table, so
the C code reads one element past `inline_shorthands` (undefined behaviour)
instead of failing as the claim states; positions ≥ 33 are rejected. -/
theorem shorthand_bound_check_off_by_one :
    inline_shorthands.length = 31 ∧
    shorthandRejected (UDICT_TYPE_SHORTHAND + 32) = false ∧
    inline_shorthands[(UDICT_TYPE_SHORTHAND + 32) - UDICT_TYPE_SHORTHAND - 1]? =
      none ∧
    shorthandRejected (UDICT_TYPE_SHORTHAND + 33) = true ∧
    udict_inline_name (UDICT_TYPE_SHORTHAND + 33) = none ∧
    ((List.range 31).all fun c =>
      decide (udict_inline_name (UDICT_TYPE_SHORTHAND + (c + 1)) =
        some ((inline_shorthands.getD c ⟨[], 0⟩).name,
              (inline_shorthands.getD c ⟨[], 0⟩).base_type))) = true := by
  decide

/-! #### Byte-level helper lemmas -/

theorem byteAt_cons_zero (a : Nat) (l : List Nat) : byteAt (a :: l) 0 = a := rfl

theorem byteAt_cons_succ (a : Nat) (l : List Nat) (i : Nat) :
    byteAt (a :: l) (i + 1) = byteAt l i := rfl

theorem byteAt_append_right (pre l : List Nat) (i : Nat) :
    byteAt (pre ++ l) (pre.length + i) = byteAt l i := by
  unfold byteAt
  rw [List.getD_append_right pre l 0 (pre.length + i) (Nat.le_add_right _ _)]
  congr 1
  omega

theorem byteAt_append_left (pre l : List Nat) (i : Nat) (h : i < pre.length) :
    byteAt (pre ++ l) i = byteAt pre i :=
  List.getD_append pre l 0 i h

theorem byteAt_middle (pre l rest : List Nat) (i : Nat) (h : i < l.length) :
    byteAt (pre ++ l ++ rest) (pre.length + i) = byteAt l i := by
  rw [List.append_assoc, byteAt_append_right, byteAt_append_left _ _ _ h]

theorem encodeEntries_nil : encodeEntries [] = [] := rfl

theorem encodeEntries_cons (e : UdictEntry) (es : List UdictEntry) :
    encodeEntries (e :: es) = encodeEntry e ++ encodeEntries es := by
  simp [encodeEntries]

theorem encodeEntries_append (a b : List UdictEntry) :
    encodeEntries (a ++ b) = encodeEntries a ++ encodeEntries b := by
  simp [encodeEntries]

theorem validEntry_shorthand (e : UdictEntry) (hv : validEntry e = true)
    (hsh : UDICT_TYPE_SHORTHAND < e.ty) :
    ∃ sh, udict_inline_shorthand e.ty = some sh ∧ e.name = [] ∧
      (∀ b ∈ e.value, b < 256) ∧
      (if isVarBase sh.base_type then e.value.length < 65536
       else e.value.length = attr_sizes.getD sh.base_type 0) := by
  simp only [validEntry, Bool.and_eq_true] at hv
  obtain ⟨hb, h2⟩ := hv
  rw [if_pos hsh] at h2
  cases hshv : udict_inline_shorthand e.ty with
  | none => rw [hshv] at h2; exact absurd h2 (by simp)
  | some sh =>
    rw [hshv] at h2
    simp only [Bool.and_eq_true, decide_eq_true_eq] at h2
    obtain ⟨hname, hw⟩ := h2
    refine ⟨sh, rfl, hname, ?_, ?_⟩
    · intro b hb'
      have := List.all_eq_true.mp hb b hb'
      simpa using this
    · by_cases hvar : isVarBase sh.base_type = true
      · rw [if_pos hvar] at hw ⊢
        simpa using hw
      · rw [if_neg hvar] at hw ⊢
        simpa using hw

theorem validEntry_plain (e : UdictEntry) (hv : validEntry e = true)
    (hsh : ¬UDICT_TYPE_SHORTHAND < e.ty) :
    0 < e.ty ∧ validName e.name = true ∧ (∀ b ∈ e.value, b < 256) ∧
      e.name.length + 1 + e.value.length < 65536 := by
  simp only [validEntry, Bool.and_eq_true] at hv
  obtain ⟨hb, h2⟩ := hv
  rw [if_neg hsh] at h2
  simp only [Bool.and_eq_true, decide_eq_true_eq] at h2
  refine ⟨h2.1.1, h2.1.2, ?_, h2.2⟩
  intro b hb'
  have := List.all_eq_true.mp hb b hb'
  simpa using this

theorem encodeEntry_head (pre rest : List Nat) (e : UdictEntry) :
    byteAt (pre ++ encodeEntry e ++ rest) pre.length = e.ty := by
  have h := byteAt_middle pre (encodeEntry e) rest 0 (by simp [encodeEntry])
  simpa [encodeEntry] using h

/-- `udict_inline_next` at an encoded entry jumps exactly past its bytes. -/
theorem next_encode (pre rest : List Nat) (e : UdictEntry)
    (hv : validEntry e = true) :
    udict_inline_next (pre ++ encodeEntry e ++ rest) pre.length =
      some (pre.length + (encodeEntry e).length) := by
  have hty0 := encodeEntry_head pre rest e
  by_cases hsh : UDICT_TYPE_SHORTHAND < e.ty
  · obtain ⟨sh, hshv, hname, hbytes, hw⟩ := validEntry_shorthand e hv hsh
    have htyne : ¬(e.ty = UDICT_TYPE_END) := by
      simp only [UDICT_TYPE_SHORTHAND] at hsh
      simp only [UDICT_TYPE_END]
      omega
    by_cases hvar : isVarBase sh.base_type = true
    · have henc : encodeEntry e = e.ty :: (e.value.length / 256) ::
          (e.value.length % 256) :: e.value := by
        simp [encodeEntry, entryRest, hsh, hshv, hvar]
      have h1 : byteAt (pre ++ encodeEntry e ++ rest) (pre.length + 1) =
          e.value.length / 256 := by
        rw [byteAt_middle pre _ rest 1 (by rw [henc]; simp), henc]
        rfl
      have h2 : byteAt (pre ++ encodeEntry e ++ rest) (pre.length + 2) =
          e.value.length % 256 := by
        rw [byteAt_middle pre _ rest 2 (by rw [henc]; simp), henc]
        rfl
      have hbe : be16At (pre ++ encodeEntry e ++ rest) pre.length =
          e.value.length := by
        unfold be16At
        rw [h1, h2]
        have := Nat.div_add_mod e.value.length 256
        omega
      simp only [udict_inline_next]
      rw [hty0, if_neg htyne, if_pos hsh]
      simp only [hshv]
      rw [if_neg (by simp [hvar]), hbe]
      congr 1
      rw [henc]
      simp
      omega
    · have henc : encodeEntry e = e.ty :: e.value := by
        simp [encodeEntry, entryRest, hsh, hshv, hvar]
      rw [if_neg hvar] at hw
      simp only [udict_inline_next]
      rw [hty0, if_neg htyne, if_pos hsh]
      simp only [hshv]
      rw [if_pos (by simp [hvar])]
      congr 1
      rw [henc]
      simp [hw]
      omega
  · obtain ⟨hpos, hnm, hbytes, hlen⟩ := validEntry_plain e hv hsh
    have htyne : ¬(e.ty = UDICT_TYPE_END) := by
      simp only [UDICT_TYPE_END]
      omega
    have henc : encodeEntry e = e.ty ::
        ((e.name.length + 1 + e.value.length) / 256) ::
        ((e.name.length + 1 + e.value.length) % 256) ::
        (e.name ++ [0] ++ e.value) := by
      simp [encodeEntry, entryRest, hsh]
    have h1 : byteAt (pre ++ encodeEntry e ++ rest) (pre.length + 1) =
        (e.name.length + 1 + e.value.length) / 256 := by
      rw [byteAt_middle pre _ rest 1 (by rw [henc]; simp), henc]
      rfl
    have h2 : byteAt (pre ++ encodeEntry e ++ rest) (pre.length + 2) =
        (e.name.length + 1 + e.value.length) % 256 := by
      rw [byteAt_middle pre _ rest 2 (by rw [henc]; simp), henc]
      rfl
    have hbe : be16At (pre ++ encodeEntry e ++ rest) pre.length =
        e.name.length + 1 + e.value.length := by
      unfold be16At
      rw [h1, h2]
      have := Nat.div_add_mod (e.name.length + 1 + e.value.length) 256
      omega
    simp only [udict_inline_next]
    rw [hty0, if_neg htyne, if_neg hsh, hbe]
    congr 1
    rw [henc]
    simp
    omega

theorem validName_cons (c : Nat) (n : List Nat) :
    validName (c :: n) = true ↔ (0 < c ∧ c < 256 ∧ validName n = true) := by
  simp [validName, List.all_cons, and_assoc]

/-- `strcmp` against the stored NUL-terminated name: true exactly on
equality, for NUL-free names. -/
theorem cstrEqAt_spec (name : List Nat) : ∀ (pre n after : List Nat),
    validName n = true → validName name = true →
    cstrEqAt (pre ++ (n ++ 0 :: after)) pre.length name = decide (name = n) := by
  induction name with
  | nil =>
    intro pre n after hn _
    cases n with
    | nil =>
      have hb : byteAt (pre ++ (0 :: after)) pre.length = 0 := by
        simpa using byteAt_append_right pre (0 :: after) 0
      simp [cstrEqAt, hb]
    | cons c n' =>
      have hc := (validName_cons c n').mp hn
      have hb : byteAt (pre ++ (c :: (n' ++ 0 :: after))) pre.length = c := by
        simpa using byteAt_append_right pre (c :: (n' ++ 0 :: after)) 0
      simp only [List.cons_append] at hb ⊢
      simp [cstrEqAt, hb]
      omega
  | cons a name' ih =>
    intro pre n after hn hname
    have ha := (validName_cons a name').mp hname
    cases n with
    | nil =>
      have hb : byteAt (pre ++ (0 :: after)) pre.length = 0 := by
        simpa using byteAt_append_right pre (0 :: after) 0
      simp [cstrEqAt, hb]
      omega
    | cons c n' =>
      have hc := (validName_cons c n').mp hn
      have hb : byteAt (pre ++ (c :: (n' ++ 0 :: after))) pre.length = c := by
        simpa using byteAt_append_right pre (c :: (n' ++ 0 :: after)) 0
      simp only [List.cons_append] at hb ⊢
      by_cases hac : a = c
      · subst hac
        have hshift : pre ++ a :: (n' ++ 0 :: after) =
            (pre ++ [a]) ++ (n' ++ 0 :: after) := by simp
        have hlen : pre.length + 1 = (pre ++ [a]).length := by simp
        simp only [cstrEqAt, hb, decide_eq_true_eq]
        rw [hshift, hlen, ih (pre ++ [a]) n' after hc.2.2 ha.2.2]
        simp
      · simp [cstrEqAt, hb, hac]
        intro h
        exact absurd h.symm hac

/-- Reading the stored NUL-terminated name returns exactly the name bytes. -/
theorem cstrReadLoop_spec (n : List Nat) : ∀ (pre after : List Nat) (fuel : Nat),
    validName n = true → n.length + 1 ≤ fuel →
    cstrReadLoop (pre ++ (n ++ 0 :: after)) fuel pre.length = n := by
  induction n with
  | nil =>
    intro pre after fuel _ hf
    cases fuel with
    | zero => omega
    | succ f =>
      have hb : byteAt (pre ++ (0 :: after)) pre.length = 0 := by
        simpa using byteAt_append_right pre (0 :: after) 0
      simp [cstrReadLoop, hb]
  | cons c n' ih =>
    intro pre after fuel hn hf
    have hc := (validName_cons c n').mp hn
    cases fuel with
    | zero => omega
    | succ f =>
      have hb : byteAt (pre ++ (c :: (n' ++ 0 :: after))) pre.length = c := by
        simpa using byteAt_append_right pre (c :: (n' ++ 0 :: after)) 0
      simp only [List.cons_append] at hb ⊢
      have hshift : pre ++ c :: (n' ++ 0 :: after) =
          (pre ++ [c]) ++ (n' ++ 0 :: after) := by simp
      have hlen : pre.length + 1 = (pre ++ [c]).length := by simp
      simp only [cstrReadLoop, hb]
      rw [if_neg (by omega)]
      congr 1
      rw [hshift, hlen]
      exact ih (pre ++ [c]) after f hc.2.2 (by simpa using hf)

/-- `strcmp` at the name field of a basic-type entry. -/
theorem cstrEqAt_entry (pre rest : List Nat) (e : UdictEntry) (name : List Nat)
    (hv : validEntry e = true) (hsh : ¬UDICT_TYPE_SHORTHAND < e.ty)
    (hname : validName name = true) :
    cstrEqAt (pre ++ encodeEntry e ++ rest) (pre.length + 3) name =
      decide (name = e.name) := by
  obtain ⟨hpos, hnm, hbytes, hlen⟩ := validEntry_plain e hv hsh
  have henc : encodeEntry e = e.ty ::
      ((e.name.length + 1 + e.value.length) / 256) ::
      ((e.name.length + 1 + e.value.length) % 256) ::
      (e.name ++ [0] ++ e.value) := by
    simp [encodeEntry, entryRest, hsh]
  have hbuf : pre ++ encodeEntry e ++ rest =
      (pre ++ [e.ty, (e.name.length + 1 + e.value.length) / 256,
        (e.name.length + 1 + e.value.length) % 256]) ++
      (e.name ++ 0 :: (e.value ++ rest)) := by
    rw [henc]; simp
  have hlenpre : pre.length + 3 =
      (pre ++ [e.ty, (e.name.length + 1 + e.value.length) / 256,
        (e.name.length + 1 + e.value.length) % 256]).length := by simp
  rw [hbuf, hlenpre]
  exact cstrEqAt_spec name _ e.name (e.value ++ rest) hnm hname

/-- The loop condition of `udict_inline_find` tested at an encoded entry is
exactly `entryMatches`. -/
theorem find_cond_match (pre rest : List Nat) (e : UdictEntry)
    (name : List Nat) (ty : Nat) (hv : validEntry e = true)
    (hty : ty ≠ UDICT_TYPE_END) (hname : validName name = true) :
    ((byteAt (pre ++ encodeEntry e ++ rest) pre.length = ty ∧
      (UDICT_TYPE_SHORTHAND < ty ∨ ty = UDICT_TYPE_END ∨
        cstrEqAt (pre ++ encodeEntry e ++ rest) (pre.length + 3) name = true))
     ↔ entryMatches e name ty = true) := by
  rw [encodeEntry_head]
  constructor
  · rintro ⟨hety, hdisj⟩
    by_cases hshty : UDICT_TYPE_SHORTHAND < ty
    · simp [entryMatches, hety, hshty]
    · rcases hdisj with h | h | h
      · exact absurd h hshty
      · exact absurd h hty
      · have hshe : ¬UDICT_TYPE_SHORTHAND < e.ty := by rw [hety]; exact hshty
        rw [cstrEqAt_entry pre rest e name hv hshe hname] at h
        have : name = e.name := by simpa using h
        simp [entryMatches, hety, this]
  · intro hm
    simp only [entryMatches, Bool.and_eq_true, Bool.or_eq_true,
      decide_eq_true_eq] at hm
    obtain ⟨hety, hdisj⟩ := hm
    refine ⟨hety, ?_⟩
    by_cases hshty : UDICT_TYPE_SHORTHAND < ty
    · exact Or.inl hshty
    · refine Or.inr (Or.inr ?_)
      have hnmeq : e.name = name := by
        rcases hdisj with h | h
        · exact absurd h hshty
        · exact h
      have hshe : ¬UDICT_TYPE_SHORTHAND < e.ty := by rw [hety]; exact hshty
      rw [cstrEqAt_entry pre rest e name hv hshe hname]
      simp [hnmeq]

theorem encodeEntry_length_pos (e : UdictEntry) : 0 < (encodeEntry e).length := by
  simp [encodeEntry]

theorem length_le_encodeEntries (es : List UdictEntry) :
    es.length ≤ (encodeEntries es).length := by
  induction es with
  | nil => simp [encodeEntries_nil]
  | cons e es ih =>
    rw [encodeEntries_cons]
    have := encodeEntry_length_pos e
    simp only [List.length_append, List.length_cons]
    omega

/-- The find loop over entries none of which match returns `none`. -/
theorem find_loop_none (name : List Nat) (ty : Nat) (hty : ty ≠ UDICT_TYPE_END)
    (hname : validName name = true) :
    ∀ (es : List UdictEntry) (fuel : Nat) (pre : List Nat),
      (∀ e ∈ es, validEntry e = true) → es.length + 1 ≤ fuel →
      (∀ e ∈ es, entryMatches e name ty = false) →
      udict_inline_find_loop (pre ++ (encodeEntries es ++ [0])) name ty fuel
        pre.length = none := by
  intro es
  induction es with
  | nil =>
    intro fuel pre _ hf _
    cases fuel with
    | zero => omega
    | succ f =>
      have hb : byteAt (pre ++ (encodeEntries [] ++ [0])) pre.length = 0 := by
        rw [encodeEntries_nil]
        simpa using byteAt_append_right pre [0] 0
      have hne : ¬((0 : Nat) = ty) := fun h => hty h.symm
      simp only [udict_inline_find_loop, udict_inline_next, hb]
      rw [if_neg (by simp [hne])]
      simp [UDICT_TYPE_END]
  | cons e es' ih =>
    intro fuel pre hv hf hnm
    cases fuel with
    | zero => omega
    | succ f =>
      have hve := hv e (List.mem_cons_self _ _)
      have hme := hnm e (List.mem_cons_self _ _)
      have hbuf : pre ++ (encodeEntries (e :: es') ++ [0]) =
          pre ++ encodeEntry e ++ (encodeEntries es' ++ [0]) := by
        rw [encodeEntries_cons]; simp
      rw [hbuf]
      simp only [udict_inline_find_loop]
      have hcond := find_cond_match pre (encodeEntries es' ++ [0]) e name ty
        hve hty hname
      have hcondf : ¬(byteAt (pre ++ encodeEntry e ++ (encodeEntries es' ++ [0]))
          pre.length = ty ∧
          (UDICT_TYPE_SHORTHAND < ty ∨ ty = UDICT_TYPE_END ∨
            cstrEqAt (pre ++ encodeEntry e ++ (encodeEntries es' ++ [0]))
              (pre.length + 3) name = true)) := by
        intro hc
        have := hcond.mp hc
        rw [hme] at this
        exact Bool.noConfusion this
      rw [if_neg hcondf, next_encode pre (encodeEntries es' ++ [0]) e hve]
      have hplen : pre.length + (encodeEntry e).length =
          (pre ++ encodeEntry e).length := by simp
      rw [hplen]
      have hgoal := ih f (pre ++ encodeEntry e)
        (fun e' h => hv e' (List.mem_cons_of_mem _ h))
        (by simp only [List.length_cons] at hf; omega)
        (fun e' h => hnm e' (List.mem_cons_of_mem _ h))
      simpa [List.append_assoc] using hgoal

/-- The find loop over entries returns the offset of the first match. -/
theorem find_loop_found (name : List Nat) (ty : Nat)
    (hty : ty ≠ UDICT_TYPE_END) (hname : validName name = true) :
    ∀ (es₁ : List UdictEntry) (e : UdictEntry) (es₂ : List UdictEntry)
      (fuel : Nat) (pre : List Nat),
      (∀ e' ∈ es₁, validEntry e' = true) → validEntry e = true →
      es₁.length + 1 ≤ fuel →
      (∀ e' ∈ es₁, entryMatches e' name ty = false) →
      entryMatches e name ty = true →
      udict_inline_find_loop (pre ++ (encodeEntries (es₁ ++ e :: es₂) ++ [0]))
        name ty fuel pre.length =
        some (pre.length + (encodeEntries es₁).length) := by
  intro es₁
  induction es₁ with
  | nil =>
    intro e es₂ fuel pre _ hve hf _ hm
    cases fuel with
    | zero => omega
    | succ f =>
      have hbuf : pre ++ (encodeEntries ([] ++ e :: es₂) ++ [0]) =
          pre ++ encodeEntry e ++ (encodeEntries es₂ ++ [0]) := by
        simp only [List.nil_append, encodeEntries_cons]; simp
      rw [hbuf]
      simp only [udict_inline_find_loop]
      have hcond := find_cond_match pre (encodeEntries es₂ ++ [0]) e name ty
        hve hty hname
      rw [if_pos (hcond.mpr hm)]
      simp [encodeEntries_nil]
  | cons e₁ es₁' ih =>
    intro e es₂ fuel pre hv hve hf hnm hm
    cases fuel with
    | zero => omega
    | succ f =>
      have hve₁ := hv e₁ (List.mem_cons_self _ _)
      have hme₁ := hnm e₁ (List.mem_cons_self _ _)
      have hbuf : pre ++ (encodeEntries ((e₁ :: es₁') ++ e :: es₂) ++ [0]) =
          pre ++ encodeEntry e₁ ++ (encodeEntries (es₁' ++ e :: es₂) ++ [0]) := by
        simp only [List.cons_append, encodeEntries_cons]; simp
      rw [hbuf]
      simp only [udict_inline_find_loop]
      have hcond := find_cond_match pre (encodeEntries (es₁' ++ e :: es₂) ++ [0])
        e₁ name ty hve₁ hty hname
      have hcondf : ¬(byteAt (pre ++ encodeEntry e₁ ++
          (encodeEntries (es₁' ++ e :: es₂) ++ [0])) pre.length = ty ∧
          (UDICT_TYPE_SHORTHAND < ty ∨ ty = UDICT_TYPE_END ∨
            cstrEqAt (pre ++ encodeEntry e₁ ++
              (encodeEntries (es₁' ++ e :: es₂) ++ [0])) (pre.length + 3) name
              = true)) := by
        intro hc
        have := hcond.mp hc
        rw [hme₁] at this
        exact Bool.noConfusion this
      rw [if_neg hcondf,
        next_encode pre (encodeEntries (es₁' ++ e :: es₂) ++ [0]) e₁ hve₁]
      have hplen : pre.length + (encodeEntry e₁).length =
          (pre ++ encodeEntry e₁).length := by simp
      rw [hplen]
      have hgoal := ih e es₂ f (pre ++ encodeEntry e₁)
        (fun e' h => hv e' (List.mem_cons_of_mem _ h))
        hve (by simp only [List.length_cons] at hf; omega)
        (fun e' h => hnm e' (List.mem_cons_of_mem _ h)) hm
      have hlen2 : (pre ++ encodeEntry e₁).length + (encodeEntries es₁').length
          = pre.length + (encodeEntries (e₁ :: es₁')).length := by
        rw [encodeEntries_cons]
        simp
        omega
      rw [← hlen2]
      simpa [List.append_assoc] using hgoal

/-- `udict_inline_find` on a well-formed dictionary with no matching entry. -/
theorem find_spec_none (d : Udict) (es : List UdictEntry) (name : List Nat)
    (ty : Nat) (hwf : wfUdict d es) (hty : ty ≠ UDICT_TYPE_END)
    (hname : validName name = true)
    (hnm : ∀ e ∈ es, entryMatches e name ty = false) :
    udict_inline_find d.buf name ty = none := by
  obtain ⟨hbuf, hv, _⟩ := hwf
  unfold udict_inline_find
  have hb2 : d.buf = [] ++ (encodeEntries es ++ [0]) := by
    rw [hbuf]; simp [UDICT_TYPE_END]
  rw [hb2]
  have hfuel : es.length + 1 ≤ ([] ++ (encodeEntries es ++ [0]) : List Nat).length + 1 := by
    have := length_le_encodeEntries es
    simp
    omega
  exact find_loop_none name ty hty hname es _ [] hv hfuel hnm

/-- `udict_inline_find` on a well-formed dictionary returns the byte offset of
the first matching entry. -/
theorem find_spec_found (d : Udict) (es₁ : List UdictEntry) (e : UdictEntry)
    (es₂ : List UdictEntry) (name : List Nat) (ty : Nat)
    (hwf : wfUdict d (es₁ ++ e :: es₂)) (hty : ty ≠ UDICT_TYPE_END)
    (hname : validName name = true)
    (hnm : ∀ e' ∈ es₁, entryMatches e' name ty = false)
    (hm : entryMatches e name ty = true) :
    udict_inline_find d.buf name ty = some (encodeEntries es₁).length := by
  obtain ⟨hbuf, hv, _⟩ := hwf
  unfold udict_inline_find
  have hb2 : d.buf = [] ++ (encodeEntries (es₁ ++ e :: es₂) ++ [0]) := by
    rw [hbuf]; simp [UDICT_TYPE_END]
  rw [hb2]
  have hfuel : es₁.length + 1 ≤
      ([] ++ (encodeEntries (es₁ ++ e :: es₂) ++ [0]) : List Nat).length + 1 := by
    have h1 := length_le_encodeEntries (es₁ ++ e :: es₂)
    have h2 : es₁.length ≤ (es₁ ++ e :: es₂).length := by simp
    simp
    simp at h1 h2
    omega
  have := find_loop_found name ty hty hname es₁ e es₂ _ []
    (fun e' h => hv e' (List.mem_append_left _ h)) (hv e (by simp)) hfuel hnm hm
  simpa using this

theorem take_middle (pre l rest : List Nat) (k : Nat) (h : k ≤ l.length) :
    (pre ++ l ++ rest).take (pre.length + k) = pre ++ l.take k := by
  rw [List.append_assoc, List.take_append, List.take_append_of_le_length h]

theorem drop_middle (pre l rest : List Nat) (k : Nat) (h : k ≤ l.length) :
    (pre ++ l ++ rest).drop (pre.length + k) = l.drop k ++ rest := by
  rw [List.append_assoc, List.drop_append, List.drop_append_of_le_length h]

/-- An encoded entry is its header followed by its value. -/
theorem encodeEntry_split (e : UdictEntry) (hv : validEntry e = true) :
    encodeEntry e = encodeHeader e ++ e.value := by
  by_cases hsh : UDICT_TYPE_SHORTHAND < e.ty
  · obtain ⟨sh, hshv, _, _, _⟩ := validEntry_shorthand e hv hsh
    by_cases hvar : isVarBase sh.base_type = true <;>
      simp [encodeEntry, entryRest, encodeHeader, hsh, hshv, hvar]
  · simp [encodeEntry, entryRest, encodeHeader, hsh]

/-- The 16-bit length field of a variable-size shorthand entry. -/
theorem be16_entry_var (pre rest : List Nat) (e : UdictEntry)
    (sh : InlineShorthand) (hv : validEntry e = true)
    (hsh : UDICT_TYPE_SHORTHAND < e.ty)
    (hshv : udict_inline_shorthand e.ty = some sh)
    (hvar : isVarBase sh.base_type = true) :
    be16At (pre ++ encodeEntry e ++ rest) pre.length = e.value.length := by
  obtain ⟨sh', hshv', _, _, hw⟩ := validEntry_shorthand e hv hsh
  rw [hshv] at hshv'
  cases hshv'
  rw [if_pos hvar] at hw
  have henc : encodeEntry e = e.ty :: (e.value.length / 256) ::
      (e.value.length % 256) :: e.value := by
    simp [encodeEntry, entryRest, hsh, hshv, hvar]
  have h1 : byteAt (pre ++ encodeEntry e ++ rest) (pre.length + 1) =
      e.value.length / 256 := by
    rw [byteAt_middle pre _ rest 1 (by rw [henc]; simp), henc]
    rfl
  have h2 : byteAt (pre ++ encodeEntry e ++ rest) (pre.length + 2) =
      e.value.length % 256 := by
    rw [byteAt_middle pre _ rest 2 (by rw [henc]; simp), henc]
    rfl
  unfold be16At
  rw [h1, h2]
  have := Nat.div_add_mod e.value.length 256
  omega

/-- The 16-bit length field of a basic-type entry covers `name\0value`. -/
theorem be16_entry_plain (pre rest : List Nat) (e : UdictEntry)
    (hv : validEntry e = true) (hsh : ¬UDICT_TYPE_SHORTHAND < e.ty) :
    be16At (pre ++ encodeEntry e ++ rest) pre.length =
      e.name.length + 1 + e.value.length := by
  obtain ⟨_, _, _, hlen⟩ := validEntry_plain e hv hsh
  have henc : encodeEntry e = e.ty ::
      ((e.name.length + 1 + e.value.length) / 256) ::
      ((e.name.length + 1 + e.value.length) % 256) ::
      (e.name ++ [0] ++ e.value) := by
    simp [encodeEntry, entryRest, hsh]
  have h1 : byteAt (pre ++ encodeEntry e ++ rest) (pre.length + 1) =
      (e.name.length + 1 + e.value.length) / 256 := by
    rw [byteAt_middle pre _ rest 1 (by rw [henc]; simp), henc]
    rfl
  have h2 : byteAt (pre ++ encodeEntry e ++ rest) (pre.length + 2) =
      (e.name.length + 1 + e.value.length) % 256 := by
    rw [byteAt_middle pre _ rest 2 (by rw [henc]; simp), henc]
    rfl
  unfold be16At
  rw [h1, h2]
  have := Nat.div_add_mod (e.name.length + 1 + e.value.length) 256
  omega

/-- Value bytes of an encoded entry inside a buffer. -/
theorem value_slice (pre rest : List Nat) (e : UdictEntry)
    (hv : validEntry e = true) :
    ((pre ++ encodeEntry e ++ rest).drop
        (pre.length + (encodeHeader e).length)).take e.value.length =
      e.value := by
  have hsplit := encodeEntry_split e hv
  have hle : (encodeHeader e).length ≤ (encodeEntry e).length := by
    rw [hsplit]; simp
  rw [drop_middle pre (encodeEntry e) rest (encodeHeader e).length hle, hsplit]
  rw [List.drop_left]
  exact List.take_left e.value rest

/-- `_udict_inline_get` on a well-formed dictionary: position and length of
the value of the first matching entry. -/
theorem get_pos_spec_found (d : Udict) (es₁ : List UdictEntry) (e : UdictEntry)
    (es₂ : List UdictEntry) (name : List Nat) (ty : Nat)
    (hwf : wfUdict d (es₁ ++ e :: es₂)) (hty : ty ≠ UDICT_TYPE_END)
    (hname : validName name = true)
    (hnm : ∀ e' ∈ es₁, entryMatches e' name ty = false)
    (hm : entryMatches e name ty = true) :
    udict_inline_get_pos d.buf name ty =
      some ((encodeEntries es₁).length + (encodeHeader e).length,
            e.value.length) := by
  have hfind := find_spec_found d es₁ e es₂ name ty hwf hty hname hnm hm
  obtain ⟨hbuf, hvAll, _⟩ := hwf
  have hve : validEntry e = true := hvAll e (by simp)
  have hety : e.ty = ty := by
    simp only [entryMatches, Bool.and_eq_true, decide_eq_true_eq] at hm
    exact hm.1
  have hshape : d.buf = encodeEntries es₁ ++ encodeEntry e ++
      (encodeEntries es₂ ++ [0]) := by
    rw [hbuf, encodeEntries_append, encodeEntries_cons]
    simp [UDICT_TYPE_END]
  have hhead : byteAt d.buf (encodeEntries es₁).length = e.ty := by
    rw [hshape]; exact encodeEntry_head _ _ _
  have hshE : UDICT_TYPE_SHORTHAND < ty → UDICT_TYPE_SHORTHAND < e.ty := by
    rw [hety]; exact id
  unfold udict_inline_get_pos
  simp only [hfind]
  by_cases hsh : UDICT_TYPE_SHORTHAND < ty
  · obtain ⟨sh, hshv, hnil, _, hw⟩ := validEntry_shorthand e hve (hshE hsh)
    rw [if_pos hsh, hhead]
    simp only [hshv]
    by_cases hvar : isVarBase sh.base_type = true
    · rw [if_neg (by simp [hvar])]
      have hbe : be16At d.buf (encodeEntries es₁).length = e.value.length := by
        rw [hshape]
        exact be16_entry_var _ _ e sh hve (hshE hsh) hshv hvar
      have hoff : (encodeHeader e).length = 3 := by
        simp [encodeHeader, if_pos (hshE hsh), hshv, hvar]
      rw [hbe, hoff]
    · rw [if_pos (by simp [hvar])]
      rw [if_neg hvar] at hw
      have hoff : (encodeHeader e).length = 1 := by
        simp [encodeHeader, if_pos (hshE hsh), hshv, hvar]
      rw [hoff, hw]
  · rw [if_neg hsh]
    have hshe : ¬UDICT_TYPE_SHORTHAND < e.ty := by rw [hety]; exact hsh
    obtain ⟨_, hnmv, _, _⟩ := validEntry_plain e hve hshe
    have hnmeq : e.name = name := by
      simp only [entryMatches, Bool.and_eq_true, Bool.or_eq_true,
        decide_eq_true_eq] at hm
      rcases hm.2 with h | h
      · exact absurd h hsh
      · exact h
    have hbe : be16At d.buf (encodeEntries es₁).length =
        e.name.length + 1 + e.value.length := by
      rw [hshape]
      exact be16_entry_plain _ _ e hve hshe
    have hoff : (encodeHeader e).length = 4 + e.name.length := by
      simp only [encodeHeader, if_neg hshe]
      simp
      omega
    rw [hbe, hoff, ← hnmeq]
    simp only [Option.some.injEq, Prod.mk.injEq]
    constructor
    · omega
    · omega

/-- `udict_inline_get` on a well-formed dictionary returns exactly the stored
value bytes of the first matching entry. -/
theorem get_bytes_spec_found (d : Udict) (es₁ : List UdictEntry)
    (e : UdictEntry) (es₂ : List UdictEntry) (name : List Nat) (ty : Nat)
    (hwf : wfUdict d (es₁ ++ e :: es₂)) (hty : ty ≠ UDICT_TYPE_END)
    (hname : validName name = true)
    (hnm : ∀ e' ∈ es₁, entryMatches e' name ty = false)
    (hm : entryMatches e name ty = true) :
    udict_get_bytes d.buf name ty = some e.value := by
  have hpos := get_pos_spec_found d es₁ e es₂ name ty hwf hty hname hnm hm
  obtain ⟨hbuf, hvAll, _⟩ := hwf
  have hve : validEntry e = true := hvAll e (by simp)
  have hshape : d.buf = encodeEntries es₁ ++ encodeEntry e ++
      (encodeEntries es₂ ++ [0]) := by
    rw [hbuf, encodeEntries_append, encodeEntries_cons]
    simp [UDICT_TYPE_END]
  unfold udict_get_bytes
  simp only [hpos]
  rw [hshape]
  congr 1
  exact value_slice _ _ e hve

/-- `udict_inline_get` fails when no entry matches. -/
theorem get_spec_none (d : Udict) (es : List UdictEntry) (name : List Nat)
    (ty : Nat) (hwf : wfUdict d es) (hty : ty ≠ UDICT_TYPE_END)
    (hname : validName name = true)
    (hnm : ∀ e ∈ es, entryMatches e name ty = false) :
    udict_inline_get_pos d.buf name ty = none ∧
    udict_get_bytes d.buf name ty = none := by
  have hfind := find_spec_none d es name ty hwf hty hname hnm
  constructor
  · unfold udict_inline_get_pos
    rw [hfind]
  · unfold udict_get_bytes udict_inline_get_pos
    rw [hfind]

theorem mkEntry_ty (n : List Nat) (t : Nat) (v : List Nat) :
    (mkEntry n t v).ty = t := by
  unfold mkEntry
  split <;> rfl

theorem mkEntry_value (n : List Nat) (t : Nat) (v : List Nat) :
    (mkEntry n t v).value = v := by
  unfold mkEntry
  split <;> rfl

/-- A non-matching entry's key is distinct from the key a set writes. -/
theorem keyDistinct_of_not_matches (a : UdictEntry) (n : List Nat) (t : Nat)
    (v : List Nat) (h : entryMatches a n t = false) :
    entryKeyDistinct a (mkEntry n t v) := by
  rintro ⟨hty, hdisj⟩
  rw [mkEntry_ty] at hty
  simp only [entryMatches, Bool.and_eq_true, Bool.or_eq_true,
    decide_eq_true_eq] at h
  rw [Bool.eq_false_iff] at h
  apply h
  simp only [Bool.and_eq_true, Bool.or_eq_true, decide_eq_true_eq]
  refine ⟨hty, ?_⟩
  rcases hdisj with hd | hd
  · left
    rw [← hty]
    exact hd
  · by_cases hsh : UDICT_TYPE_SHORTHAND < t
    · exact Or.inl hsh
    · right
      rw [hd]
      simp [mkEntry, hsh]

/-- Split a list at the first element satisfying `p`, or certify none does. -/
theorem first_match_split (p : UdictEntry → Bool) (es : List UdictEntry) :
    (∀ e ∈ es, p e = false) ∨
    ∃ es₁ e es₂, es = es₁ ++ e :: es₂ ∧ (∀ e' ∈ es₁, p e' = false) ∧
      p e = true := by
  induction es with
  | nil => left; intro e he; cases he
  | cons e es ih =>
    by_cases hp : p e = true
    · right
      refine ⟨[], e, es, by simp, ?_, hp⟩
      intro x hx
      cases hx
    · have hpf : p e = false := by
        revert hp
        cases p e <;> simp
      rcases ih with h | ⟨es₁, e', es₂, heq, h1, h2⟩
      · left
        intro x hx
        rcases List.mem_cons.1 hx with rfl | hx'
        · exact hpf
        · exact h x hx'
      · right
        refine ⟨e :: es₁, e', es₂, by rw [heq]; rfl, ?_, h2⟩
        intro x hx
        rcases List.mem_cons.1 hx with rfl | hx'
        · exact hpf
        · exact h1 x hx'

theorem absDel_none (name : List Nat) (ty : Nat) (es : List UdictEntry)
    (hnm : ∀ e ∈ es, entryMatches e name ty = false) :
    absDel name ty es = es := by
  induction es with
  | nil => rfl
  | cons e es ih =>
    simp only [absDel, hnm e (List.mem_cons_self _ _)]
    simp only [Bool.false_eq_true, if_false]
    rw [ih (fun e' h => hnm e' (List.mem_cons_of_mem _ h))]

theorem absDel_split (name : List Nat) (ty : Nat) (es₁ : List UdictEntry)
    (e : UdictEntry) (es₂ : List UdictEntry)
    (hnm : ∀ e' ∈ es₁, entryMatches e' name ty = false)
    (hm : entryMatches e name ty = true) :
    absDel name ty (es₁ ++ e :: es₂) = es₁ ++ es₂ := by
  induction es₁ with
  | nil => simp [absDel, hm]
  | cons e₁ es₁' ih =>
    have h1 := hnm e₁ (List.mem_cons_self _ _)
    simp only [List.cons_append, absDel, h1, Bool.false_eq_true, if_false]
    exact congrArg (e₁ :: ·) (ih (fun e' h => hnm e' (List.mem_cons_of_mem _ h)))

/-- `udict_inline_delete` on a well-formed dictionary with no match: no
change. -/
theorem delete_spec_none (d : Udict) (es : List UdictEntry) (name : List Nat)
    (ty : Nat) (hwf : wfUdict d es) (hty : ty ≠ UDICT_TYPE_END)
    (hname : validName name = true)
    (hnm : ∀ e ∈ es, entryMatches e name ty = false) :
    udict_inline_delete d name ty = (false, d) := by
  unfold udict_inline_delete
  rw [find_spec_none d es name ty hwf hty hname hnm]

/-- `udict_inline_delete` removes exactly the bytes of the first matching
entry and preserves well-formedness. -/
theorem delete_spec_found (d : Udict) (es₁ : List UdictEntry) (e : UdictEntry)
    (es₂ : List UdictEntry) (name : List Nat) (ty : Nat)
    (hwf : wfUdict d (es₁ ++ e :: es₂)) (hty : ty ≠ UDICT_TYPE_END)
    (hname : validName name = true)
    (hnm : ∀ e' ∈ es₁, entryMatches e' name ty = false)
    (hm : entryMatches e name ty = true) :
    udict_inline_delete d name ty =
      (true, { d with buf := encodeEntries (es₁ ++ es₂) ++ [UDICT_TYPE_END] }) ∧
    wfUdict { d with buf := encodeEntries (es₁ ++ es₂) ++ [UDICT_TYPE_END] }
      (es₁ ++ es₂) := by
  obtain ⟨hbuf, hvAll, hpw⟩ := hwf
  have hve : validEntry e = true := hvAll e (by simp)
  have hfind := find_spec_found d es₁ e es₂ name ty ⟨hbuf, hvAll, hpw⟩ hty
    hname hnm hm
  have hshape : d.buf = encodeEntries es₁ ++ encodeEntry e ++
      (encodeEntries es₂ ++ [0]) := by
    rw [hbuf, encodeEntries_append, encodeEntries_cons]
    simp [UDICT_TYPE_END]
  have hnext : udict_inline_next d.buf (encodeEntries es₁).length =
      some ((encodeEntries es₁).length + (encodeEntry e).length) := by
    rw [hshape]
    exact next_encode _ _ e hve
  have htake : d.buf.take (encodeEntries es₁).length = encodeEntries es₁ := by
    rw [hshape, List.append_assoc]
    exact List.take_left _ _
  have hdrop : d.buf.drop ((encodeEntries es₁).length + (encodeEntry e).length)
      = encodeEntries es₂ ++ [0] := by
    rw [hshape]
    have := drop_middle (encodeEntries es₁) (encodeEntry e)
      (encodeEntries es₂ ++ [0]) (encodeEntry e).length (Nat.le_refl _)
    rw [this]
    simp
  constructor
  · unfold udict_inline_delete
    simp only [hfind, hnext]
    rw [htake, hdrop]
    rw [encodeEntries_append]
    simp [UDICT_TYPE_END]
  · refine ⟨by simp [UDICT_TYPE_END], ?_, ?_⟩
    · intro e' he'
      apply hvAll
      rcases List.mem_append.1 he' with h | h
      · exact List.mem_append_left _ h
      · exact List.mem_append_right _ (List.mem_cons_of_mem _ h)
    · exact hpw.sublist
        (List.Sublist.append_left (List.sublist_cons_self e es₂) es₁)

/-- `udict_inline_set` on a fresh key appends a new entry at the END byte and
keeps the buffer well formed. -/
theorem set_append_spec (mgr : UdictMgr) (d : Udict) (es : List UdictEntry)
    (n : List Nat) (t : Nat) (v : List Nat)
    (hwf : wfUdict d es) (hty : t ≠ UDICT_TYPE_END)
    (hname : validName n = true)
    (hval : validEntry (mkEntry n t v) = true)
    (hnm : ∀ e ∈ es, entryMatches e n t = false) :
    ∃ d', udict_inline_set mgr d n t v = some d' ∧
      d'.buf = encodeEntries (es ++ [mkEntry n t v]) ++ [UDICT_TYPE_END] ∧
      wfUdict d' (es ++ [mkEntry n t v]) := by
  have hget := (get_spec_none d es n t hwf hty hname hnm).1
  obtain ⟨hbuf, hvAll, hpw⟩ := hwf
  have hdropLast : d.buf.dropLast = encodeEntries es := by
    rw [hbuf]
    exact List.dropLast_concat
  have hpw' : (es ++ [mkEntry n t v]).Pairwise entryKeyDistinct := by
    rw [List.pairwise_append]
    refine ⟨hpw, by simp, ?_⟩
    intro a ha b hb
    rw [List.mem_singleton] at hb
    subst hb
    exact keyDistinct_of_not_matches a n t v (hnm a ha)
  have hvAll' : ∀ e ∈ es ++ [mkEntry n t v], validEntry e = true := by
    intro e he
    rcases List.mem_append.1 he with h | h
    · exact hvAll e h
    · rw [List.mem_singleton] at h
      subst h
      exact hval
  by_cases hsh : UDICT_TYPE_SHORTHAND < t
  · have hmkty : (mkEntry n t v).ty = t := mkEntry_ty n t v
    obtain ⟨sh, hshv, _, _, hw⟩ :=
      validEntry_shorthand (mkEntry n t v) hval (by rw [hmkty]; exact hsh)
    rw [hmkty] at hshv
    have hmk : mkEntry n t v = ⟨t, [], v⟩ := by simp [mkEntry, hsh]
    have heq : udict_inline_set mgr d n t v =
        some (udict_inline_append mgr d n t v (some sh)) := by
      unfold udict_inline_set
      rw [if_pos hsh]
      simp only [hshv, hget]
    by_cases hvar : isVarBase sh.base_type = true
    · have hhdr : (udict_inline_append mgr d n t v (some sh)).buf =
          encodeEntries es ++ ([t, v.length / 256, v.length % 256] ++ v ++
            [UDICT_TYPE_END]) := by
        unfold udict_inline_append
        simp only [hvar, if_pos, hdropLast]
        simp [hvar]
      have henc : encodeEntry (mkEntry n t v) =
          t :: v.length / 256 :: v.length % 256 :: v := by
        rw [hmk]
        simp [encodeEntry, entryRest, hsh, hshv, hvar]
      refine ⟨_, heq, ?_, ?_, hvAll', hpw'⟩
      · rw [hhdr, encodeEntries_append, encodeEntries_cons, encodeEntries_nil,
          henc]
        simp
      · rw [hhdr, encodeEntries_append, encodeEntries_cons, encodeEntries_nil,
          henc]
        simp
    · have hhdr : (udict_inline_append mgr d n t v (some sh)).buf =
          encodeEntries es ++ ([t] ++ v ++ [UDICT_TYPE_END]) := by
        unfold udict_inline_append
        simp only [hdropLast]
        simp [hvar]
      have henc : encodeEntry (mkEntry n t v) = t :: v := by
        rw [hmk]
        simp [encodeEntry, entryRest, hsh, hshv, hvar]
      refine ⟨_, heq, ?_, ?_, hvAll', hpw'⟩
      · rw [hhdr, encodeEntries_append, encodeEntries_cons, encodeEntries_nil,
          henc]
        simp
      · rw [hhdr, encodeEntries_append, encodeEntries_cons, encodeEntries_nil,
          henc]
        simp
  · have hmk : mkEntry n t v = ⟨t, n, v⟩ := by simp [mkEntry, hsh]
    have heq : udict_inline_set mgr d n t v =
        some (udict_inline_append mgr d n t v none) := by
      unfold udict_inline_set
      rw [if_neg hsh]
      simp only [hget]
    have hhdr : (udict_inline_append mgr d n t v none).buf =
        encodeEntries es ++
          ((t :: ((n.length + 1 + v.length) / 256) ::
            ((n.length + 1 + v.length) % 256) :: (n ++ [0])) ++ v ++
            [UDICT_TYPE_END]) := by
      unfold udict_inline_append
      simp only [hdropLast]
      simp
    have henc : encodeEntry (mkEntry n t v) =
        t :: ((n.length + 1 + v.length) / 256) ::
          ((n.length + 1 + v.length) % 256) :: (n ++ [0] ++ v) := by
      rw [hmk]
      simp [encodeEntry, entryRest, hsh]
    refine ⟨_, heq, ?_, ?_, hvAll', hpw'⟩
    · rw [hhdr, encodeEntries_append, encodeEntries_cons, encodeEntries_nil,
        henc]
      simp
    · rw [hhdr, encodeEntries_append, encodeEntries_cons, encodeEntries_nil,
        henc]
      simp

theorem validKey_name (n : List Nat) (t : Nat) (h : validKey n t = true) :
    validName n = true := by
  simp only [validKey, Bool.and_eq_true] at h
  exact h.1

theorem validKey_ty (n : List Nat) (t : Nat) (h : validKey n t = true) :
    t ≠ UDICT_TYPE_END := by
  simp only [validKey, Bool.and_eq_true] at h
  by_cases hsh : UDICT_TYPE_SHORTHAND < t
  · simp only [UDICT_TYPE_SHORTHAND] at hsh
    simp only [UDICT_TYPE_END]
    omega
  · have := h.2
    rw [if_neg hsh] at this
    simp only [decide_eq_true_eq] at this
    simp only [UDICT_TYPE_END]
    omega

/-- Distinct set keys never produce matching entries. -/
theorem not_matches_of_not_keysMatch (n : List Nat) (t : Nat) (v : List Nat)
    (n' : List Nat) (t' : Nat) (h : keysMatch (n, t) (n', t') = false) :
    entryMatches (mkEntry n t v) n' t' = false := by
  rw [Bool.eq_false_iff] at h ⊢
  intro hm
  apply h
  simp only [entryMatches, Bool.and_eq_true, Bool.or_eq_true,
    decide_eq_true_eq, mkEntry_ty] at hm
  obtain ⟨hty, hdisj⟩ := hm
  simp only [keysMatch, Bool.and_eq_true, Bool.or_eq_true, decide_eq_true_eq]
  refine ⟨hty, ?_⟩
  rcases hdisj with hd | hd
  · left
    rw [hty]
    exact hd
  · by_cases hsh : UDICT_TYPE_SHORTHAND < t
    · exact Or.inl hsh
    · right
      have hnm : (mkEntry n t v).name = n := by simp [mkEntry, hsh]
      rw [hnm] at hd
      exact hd

/-- Running a valid operation sequence on a well-formed dictionary succeeds
and tracks the abstract entry-list semantics. -/
theorem applyOps_wf (ops : List DOp) : ∀ (es : List UdictEntry) (d : Udict)
    (mgr : UdictMgr),
    wfUdict d es →
    (∀ op ∈ ops, validOp op = true) →
    distinctSetKeys ops = true →
    (∀ n t v, DOp.dset n t v ∈ ops → ∀ e ∈ es, entryMatches e n t = false) →
    ∃ d', applyOps mgr d ops = some d' ∧ wfUdict d' (absApply es ops) := by
  induction ops with
  | nil => intro es d mgr hwf _ _ _; exact ⟨d, rfl, hwf⟩
  | cons op rest ih =>
    intro es d mgr hwf hvo hdk hfresh
    cases op with
    | dset n t v =>
      have hvop := hvo _ (List.mem_cons_self _ _)
      simp only [validOp, Bool.and_eq_true] at hvop
      obtain ⟨hkey, hval⟩ := hvop
      have hty := validKey_ty n t hkey
      have hname := validKey_name n t hkey
      have hnm : ∀ e ∈ es, entryMatches e n t = false :=
        hfresh n t v (List.mem_cons_self _ _)
      obtain ⟨d1, heq, hbuf1, hwf1⟩ :=
        set_append_spec mgr d es n t v hwf hty hname hval hnm
      simp only [distinctSetKeys, Bool.and_eq_true] at hdk
      obtain ⟨hdhead, hdrest⟩ := hdk
      have hfresh' : ∀ n' t' v', DOp.dset n' t' v' ∈ rest →
          ∀ e ∈ es ++ [mkEntry n t v], entryMatches e n' t' = false := by
        intro n' t' v' hmem e he
        rcases List.mem_append.1 he with h | h
        · exact hfresh n' t' v' (List.mem_cons_of_mem _ hmem) e h
        · rw [List.mem_singleton] at h
          subst h
          have := List.all_eq_true.mp hdhead _ hmem
          simp only [Bool.not_eq_true'] at this
          exact not_matches_of_not_keysMatch n t v n' t' this
      obtain ⟨d', happ, hwf'⟩ := ih (es ++ [mkEntry n t v]) d1 mgr hwf1
        (fun op h => hvo op (List.mem_cons_of_mem _ h)) hdrest hfresh'
      refine ⟨d', ?_, hwf'⟩
      simp only [applyOps, applyOp, heq]
      exact happ
    | ddel n t =>
      have hvop := hvo _ (List.mem_cons_self _ _)
      simp only [validOp] at hvop
      have hty := validKey_ty n t hvop
      have hname := validKey_name n t hvop
      have hdk' : distinctSetKeys rest = true := by
        simpa [distinctSetKeys] using hdk
      rcases first_match_split (fun e => entryMatches e n t) es with
        hnone | ⟨es₁, e, es₂, heq, h1, h2⟩
      · have hdel := delete_spec_none d es n t hwf hty hname hnone
        have habs : absDel n t es = es := absDel_none n t es hnone
        obtain ⟨d', happ, hwf'⟩ := ih es d mgr hwf
          (fun op h => hvo op (List.mem_cons_of_mem _ h)) hdk'
          (fun n' t' v' hmem e he =>
            hfresh n' t' v' (List.mem_cons_of_mem _ hmem) e he)
        refine ⟨d', ?_, ?_⟩
        · simp only [applyOps, applyOp, hdel]
          exact happ
        · simpa [absApply, habs] using hwf'
      · subst heq
        obtain ⟨hdel, hwf1⟩ := delete_spec_found d es₁ e es₂ n t hwf hty
          hname h1 h2
        have habs : absDel n t (es₁ ++ e :: es₂) = es₁ ++ es₂ :=
          absDel_split n t es₁ e es₂ h1 h2
        have hfresh' : ∀ n' t' v', DOp.dset n' t' v' ∈ rest →
            ∀ x ∈ es₁ ++ es₂, entryMatches x n' t' = false := by
          intro n' t' v' hmem x hx
          apply hfresh n' t' v' (List.mem_cons_of_mem _ hmem)
          rcases List.mem_append.1 hx with h | h
          · exact List.mem_append_left _ h
          · exact List.mem_append_right _ (List.mem_cons_of_mem _ h)
        obtain ⟨d', happ, hwf'⟩ := ih (es₁ ++ es₂) _ mgr hwf1
          (fun op h => hvo op (List.mem_cons_of_mem _ h)) hdk' hfresh'
        refine ⟨d', ?_, ?_⟩
        · simp only [applyOps, applyOp, hdel]
          exact happ
        · simpa [absApply, habs] using hwf'

theorem delMatched_cons_set (n : List Nat) (t : Nat) (v : List Nat)
    (rest : List DOp) (e : UdictEntry) :
    delMatched (DOp.dset n t v :: rest) e = delMatched rest e := by
  simp [delMatched]

theorem delMatched_cons_del (n : List Nat) (t : Nat) (rest : List DOp)
    (e : UdictEntry) :
    delMatched (DOp.ddel n t :: rest) e =
      (entryMatches e n t || delMatched rest e) := by
  simp [delMatched]

/-- Two entries matching the same key cannot have distinct keys. -/
theorem not_keyDistinct_of_matches (e e' : UdictEntry) (n : List Nat) (t : Nat)
    (h : entryMatches e n t = true) (h' : entryMatches e' n t = true) :
    ¬entryKeyDistinct e e' := by
  intro hd
  apply hd
  simp only [entryMatches, Bool.and_eq_true, Bool.or_eq_true,
    decide_eq_true_eq] at h h'
  refine ⟨h.1.trans h'.1.symm, ?_⟩
  rcases h.2 with hc | hc
  · left
    rw [h.1]
    exact hc
  · rcases h'.2 with hc' | hc'
    · left
      rw [h.1]
      exact hc'
    · right
      rw [hc, hc']

/-- Under key distinctness, removing the first match removes the only one. -/
theorem absDel_eq_filter (n : List Nat) (t : Nat) (es : List UdictEntry)
    (hpw : es.Pairwise entryKeyDistinct) :
    absDel n t es = es.filter (fun e => !entryMatches e n t) := by
  induction es with
  | nil => rfl
  | cons e es' ih =>
    rw [List.pairwise_cons] at hpw
    by_cases hm : entryMatches e n t = true
    · have hnone : ∀ e' ∈ es', entryMatches e' n t = false := by
        intro e' he'
        rw [Bool.eq_false_iff]
        intro hm'
        exact not_keyDistinct_of_matches e e' n t hm hm' (hpw.1 e' he')
      rw [absDel, if_pos hm, List.filter_cons_of_neg (by simp [hm])]
      rw [List.filter_eq_self.mpr]
      intro e' he'
      simp [hnone e' he']
    · have hmf : entryMatches e n t = false := by
        revert hm
        cases entryMatches e n t <;> simp
      rw [absDel, if_neg (by simp [hmf]), List.filter_cons_of_pos (by simp [hmf])]
      rw [ih hpw.2]

/-- Abstract runs compute the surviving entries: existing entries survive
unless later deleted, and the set entries not subsequently deleted are
appended in order. -/
theorem absApply_filter (ops : List DOp) : ∀ (es : List UdictEntry),
    es.Pairwise entryKeyDistinct →
    (∀ n t v, DOp.dset n t v ∈ ops → ∀ e ∈ es, entryMatches e n t = false) →
    distinctSetKeys ops = true →
    absApply es ops = es.filter (fun e => !delMatched ops e) ++ survivors ops := by
  induction ops with
  | nil =>
    intro es _ _ _
    simp [absApply, survivors, delMatched]
  | cons op rest ih =>
    intro es hpw hfresh hdk
    cases op with
    | dset n t v =>
      simp only [distinctSetKeys, Bool.and_eq_true] at hdk
      obtain ⟨hdhead, hdrest⟩ := hdk
      have hnm : ∀ e ∈ es, entryMatches e n t = false :=
        hfresh n t v (List.mem_cons_self _ _)
      have hpw' : (es ++ [mkEntry n t v]).Pairwise entryKeyDistinct := by
        rw [List.pairwise_append]
        refine ⟨hpw, by simp, ?_⟩
        intro a ha b hb
        rw [List.mem_singleton] at hb
        subst hb
        exact keyDistinct_of_not_matches a n t v (hnm a ha)
      have hfresh' : ∀ n' t' v', DOp.dset n' t' v' ∈ rest →
          ∀ e ∈ es ++ [mkEntry n t v], entryMatches e n' t' = false := by
        intro n' t' v' hmem e he
        rcases List.mem_append.1 he with h | h
        · exact hfresh n' t' v' (List.mem_cons_of_mem _ hmem) e h
        · rw [List.mem_singleton] at h
          subst h
          have := List.all_eq_true.mp hdhead _ hmem
          simp only [Bool.not_eq_true'] at this
          exact not_matches_of_not_keysMatch n t v n' t' this
      have hstep := ih (es ++ [mkEntry n t v]) hpw' hfresh' hdrest
      have hfc : es.filter (fun e => !delMatched (DOp.dset n t v :: rest) e) =
          es.filter (fun e => !delMatched rest e) :=
        List.filter_congr (fun e _ => by rw [delMatched_cons_set])
      show absApply (es ++ [mkEntry n t v]) rest = _
      rw [hstep, List.filter_append]
      simp only [survivors]
      rw [hfc]
      by_cases hdm : delMatched rest (mkEntry n t v) = true
      · rw [if_pos hdm]
        have hemp : List.filter (fun e => !delMatched rest e) [mkEntry n t v]
            = [] := by simp [hdm]
        rw [hemp, List.append_nil]
      · have hdmf : delMatched rest (mkEntry n t v) = false := by
          revert hdm
          cases delMatched rest (mkEntry n t v) <;> simp
        rw [if_neg (by simp [hdmf])]
        have hone : List.filter (fun e => !delMatched rest e) [mkEntry n t v]
            = [mkEntry n t v] := by simp [hdmf]
        rw [hone, List.append_assoc]
        rfl
    | ddel n t =>
      have hdk' : distinctSetKeys rest = true := by
        simpa [distinctSetKeys] using hdk
      have hfresh' : ∀ n' t' v', DOp.dset n' t' v' ∈ rest →
          ∀ e ∈ absDel n t es, entryMatches e n' t' = false := by
        intro n' t' v' hmem e he
        rw [absDel_eq_filter n t es hpw] at he
        exact hfresh n' t' v' (List.mem_cons_of_mem _ hmem) e
          (List.mem_of_mem_filter he)
      have hpw'' : (absDel n t es).Pairwise entryKeyDistinct := by
        rw [absDel_eq_filter n t es hpw]
        exact hpw.sublist (List.filter_sublist es)
      have hstep := ih (absDel n t es) hpw'' hfresh' hdk'
      have hfc : es.filter (fun e => !delMatched (DOp.ddel n t :: rest) e) =
          (absDel n t es).filter (fun e => !delMatched rest e) := by
        rw [absDel_eq_filter n t es hpw, List.filter_filter]
        apply List.filter_congr
        intro e _
        rw [delMatched_cons_del]
        cases entryMatches e n t <;> cases delMatched rest e <;> rfl
      show absApply (absDel n t es) rest = _
      rw [hstep]
      simp only [survivors]
      rw [hfc]

/-- From a fresh dictionary the abstract run yields exactly the survivors. -/
theorem absApply_nil_eq_survivors (ops : List DOp)
    (hdk : distinctSetKeys ops = true) :
    absApply [] ops = survivors ops := by
  have := absApply_filter ops [] (by simp) (by intro n t v _ e he; cases he) hdk
  simpa using this

theorem find?_split (p : UdictEntry → Bool) (es₁ : List UdictEntry)
    (e : UdictEntry) (es₂ : List UdictEntry)
    (h1 : ∀ e' ∈ es₁, p e' = false) (h2 : p e = true) :
    (es₁ ++ e :: es₂).find? p = some e := by
  induction es₁ with
  | nil => simp [List.find?, h2]
  | cons e₁ es₁' ih =>
    have := h1 e₁ (List.mem_cons_self _ _)
    simp only [List.cons_append, List.find?, this]
    exact ih (fun e' h => h1 e' (List.mem_cons_of_mem _ h))

/-- `udict_inline_get` on a well-formed dictionary agrees with lookup in the
decoded entry list. -/
theorem get_wf_lookup (d : Udict) (es : List UdictEntry) (n : List Nat)
    (t : Nat) (hwf : wfUdict d es) (hty : t ≠ UDICT_TYPE_END)
    (hname : validName n = true) :
    (∀ e, es.find? (fun e => entryMatches e n t) = some e →
      udict_get_bytes d.buf n t = some e.value) ∧
    (es.find? (fun e => entryMatches e n t) = none →
      udict_get_bytes d.buf n t = none) := by
  rcases first_match_split (fun e => entryMatches e n t) es with
    hnone | ⟨es₁, e, es₂, heq, h1, h2⟩
  · have hfnone : es.find? (fun e => entryMatches e n t) = none := by
      rw [List.find?_eq_none]
      intro x hx
      rw [hnone x hx]
      simp
    constructor
    · intro e he
      rw [hfnone] at he
      cases he
    · intro _
      exact (get_spec_none d es n t hwf hty hname hnone).2
  · subst heq
    have hfind : (es₁ ++ e :: es₂).find? (fun e => entryMatches e n t) =
        some e := find?_split _ es₁ e es₂ h1 h2
    constructor
    · intro e' he'
      rw [hfind] at he'
      cases he'
      exact get_bytes_spec_found d es₁ e es₂ n t hwf hty hname h1 h2
    · intro hn
      rw [hfind] at hn
      cases hn

/-- The cursor name of an entry, as passed back into `udict_inline_find` by
the iteration. -/
theorem cursName_valid (e : UdictEntry) (hv : validEntry e = true) :
    validName ((entryCursor e).1.getD []) = true := by
  by_cases hsh : UDICT_TYPE_SHORTHAND < e.ty
  · simp [entryCursor, hsh, validName]
  · obtain ⟨_, hnm, _, _⟩ := validEntry_plain e hv hsh
    simpa [entryCursor, hsh] using hnm

theorem entry_matches_own_cursor (e : UdictEntry) :
    entryMatches e ((entryCursor e).1.getD []) e.ty = true := by
  by_cases hsh : UDICT_TYPE_SHORTHAND < e.ty <;>
    simp [entryCursor, entryMatches, hsh]

theorem not_matches_cursor_of_keyDistinct (e' e : UdictEntry)
    (hd : entryKeyDistinct e' e) :
    entryMatches e' ((entryCursor e).1.getD []) e.ty = false := by
  rw [Bool.eq_false_iff]
  intro hm
  apply hd
  simp only [entryMatches, Bool.and_eq_true, Bool.or_eq_true,
    decide_eq_true_eq] at hm
  refine ⟨hm.1, ?_⟩
  rcases hm.2 with h | h
  · left
    rw [hm.1]
    exact h
  · by_cases hsh : UDICT_TYPE_SHORTHAND < e.ty
    · left
      rw [hm.1]
      exact hsh
    · right
      rw [h]
      simp [entryCursor, hsh]

/-- The entry type is nonzero for valid entries. -/
theorem validEntry_ty_ne_end (e : UdictEntry) (hv : validEntry e = true) :
    e.ty ≠ UDICT_TYPE_END := by
  by_cases hsh : UDICT_TYPE_SHORTHAND < e.ty
  · simp only [UDICT_TYPE_SHORTHAND] at hsh
    simp only [UDICT_TYPE_END]
    omega
  · obtain ⟨hpos, _, _, _⟩ := validEntry_plain e hv hsh
    simp only [UDICT_TYPE_END]
    omega

/-- `readCursor` at the start of an encoded suffix reads the first entry's
cursor (or the END cursor). -/
theorem readCursor_spec (pre : List Nat) (es : List UdictEntry)
    (hv : ∀ e ∈ es, validEntry e = true) :
    readCursor (pre ++ (encodeEntries es ++ [0])) pre.length =
      headCursor es := by
  cases es with
  | nil =>
    have hb : byteAt (pre ++ (encodeEntries [] ++ [0])) pre.length = 0 := by
      rw [encodeEntries_nil]
      simpa using byteAt_append_right pre [0] 0
    simp [readCursor, hb, UDICT_TYPE_END, headCursor]
  | cons e es' =>
    have hve := hv e (List.mem_cons_self _ _)
    have hbuf : pre ++ (encodeEntries (e :: es') ++ [0]) =
        pre ++ encodeEntry e ++ (encodeEntries es' ++ [0]) := by
      rw [encodeEntries_cons]
      simp
    rw [hbuf]
    have hb : byteAt (pre ++ encodeEntry e ++ (encodeEntries es' ++ [0]))
        pre.length = e.ty := encodeEntry_head _ _ _
    have htyne := validEntry_ty_ne_end e hve
    by_cases hsh : UDICT_TYPE_SHORTHAND < e.ty
    · simp only [readCursor, hb]
      rw [if_neg (by simpa [UDICT_TYPE_END] using htyne), if_pos hsh]
      simp [entryCursor, headCursor, hsh]
    · obtain ⟨hpos, hnm, hbytes, hlen⟩ := validEntry_plain e hve hsh
      have henc : encodeEntry e = e.ty ::
          ((e.name.length + 1 + e.value.length) / 256) ::
          ((e.name.length + 1 + e.value.length) % 256) ::
          (e.name ++ [0] ++ e.value) := by
        simp [encodeEntry, entryRest, hsh]
      have hbufshape : pre ++ encodeEntry e ++ (encodeEntries es' ++ [0]) =
          (pre ++ [e.ty, (e.name.length + 1 + e.value.length) / 256,
            (e.name.length + 1 + e.value.length) % 256]) ++
          (e.name ++ 0 :: (e.value ++ (encodeEntries es' ++ [0]))) := by
        rw [henc]
        simp
      have hread : cstrRead (pre ++ encodeEntry e ++ (encodeEntries es' ++ [0]))
          (pre.length + 3) = e.name := by
        unfold cstrRead
        rw [hbufshape]
        have hlenpre : pre.length + 3 =
            (pre ++ [e.ty, (e.name.length + 1 + e.value.length) / 256,
              (e.name.length + 1 + e.value.length) % 256]).length := by simp
        rw [hlenpre]
        apply cstrReadLoop_spec e.name _ _ _ hnm
        simp
        omega
      simp only [readCursor, hb, headCursor]
      rw [if_neg (by simpa [UDICT_TYPE_END] using htyne), if_neg hsh, hread]
      simp [entryCursor, hsh]

/-- `udict_inline_iterate` from the start cursor reads the first entry. -/
theorem iterate_start (d : Udict) (es : List UdictEntry)
    (hwf : wfUdict d es) :
    udict_inline_iterate d.buf (none, UDICT_TYPE_END) = headCursor es := by
  obtain ⟨hbuf, hv, _⟩ := hwf
  unfold udict_inline_iterate
  simp only [ne_eq, not_true_eq_false, if_false, reduceIte]
  have hb2 : d.buf = [] ++ (encodeEntries es ++ [0]) := by
    rw [hbuf]
    simp [UDICT_TYPE_END]
  rw [hb2]
  exact readCursor_spec [] es hv

/-- `udict_inline_iterate` from an entry's cursor reads the next entry. -/
theorem iterate_step (d : Udict) (es₁ : List UdictEntry) (e : UdictEntry)
    (es₂ : List UdictEntry) (hwf : wfUdict d (es₁ ++ e :: es₂)) :
    udict_inline_iterate d.buf (entryCursor e) = headCursor es₂ := by
  obtain ⟨hbuf, hv, hpw⟩ := hwf
  have hve : validEntry e = true := hv e (by simp)
  have htyne := validEntry_ty_ne_end e hve
  have hnm : ∀ e' ∈ es₁,
      entryMatches e' ((entryCursor e).1.getD []) e.ty = false := by
    intro e' he'
    rw [List.pairwise_append] at hpw
    exact not_matches_cursor_of_keyDistinct e' e
      (hpw.2.2 e' he' e (List.mem_cons_self _ _))
  have hfind := find_spec_found d es₁ e es₂ ((entryCursor e).1.getD []) e.ty
    ⟨hbuf, hv, hpw⟩ htyne (cursName_valid e hve) hnm
    (entry_matches_own_cursor e)
  have hshape : d.buf = encodeEntries es₁ ++ encodeEntry e ++
      (encodeEntries es₂ ++ [0]) := by
    rw [hbuf, encodeEntries_append, encodeEntries_cons]
    simp [UDICT_TYPE_END]
  have hnext : udict_inline_next d.buf (encodeEntries es₁).length =
      some ((encodeEntries es₁).length + (encodeEntry e).length) := by
    rw [hshape]
    exact next_encode _ _ e hve
  have hc2 : (entryCursor e).2 = e.ty := rfl
  unfold udict_inline_iterate
  rw [hc2, if_pos htyne]
  simp only [hfind, hnext]
  have hshape2 : d.buf = (encodeEntries es₁ ++ encodeEntry e) ++
      (encodeEntries es₂ ++ [0]) := by
    rw [hshape]
  have hlen2 : (encodeEntries es₁).length + (encodeEntry e).length =
      (encodeEntries es₁ ++ encodeEntry e).length := by simp
  rw [hlen2, hshape2]
  exact readCursor_spec (encodeEntries es₁ ++ encodeEntry e) es₂
    (fun e' h => hv e' (List.mem_append_right _ (List.mem_cons_of_mem _ h)))

/-- The iteration loop started at an entry's cursor lists the cursors of the
following entries. -/
theorem iterateListLoop_spec (d : Udict) (es₂ : List UdictEntry) :
    ∀ (es₁ : List UdictEntry) (e : UdictEntry) (fuel : Nat),
    wfUdict d (es₁ ++ e :: es₂) → es₂.length + 1 ≤ fuel →
    iterateListLoop d.buf fuel (entryCursor e) = es₂.map entryCursor := by
  induction es₂ with
  | nil =>
    intro es₁ e fuel hwf hf
    cases fuel with
    | zero => omega
    | succ f =>
      have hit := iterate_step d es₁ e [] hwf
      simp [iterateListLoop, hit, headCursor]
  | cons e' es₂' ih =>
    intro es₁ e fuel hwf hf
    cases fuel with
    | zero => omega
    | succ f =>
      have hit := iterate_step d es₁ e (e' :: es₂') hwf
      have hve' : validEntry e' = true := by
        obtain ⟨_, hv, _⟩ := hwf
        exact hv e' (by simp)
      have hty' := validEntry_ty_ne_end e' hve'
      simp only [iterateListLoop, hit, headCursor]
      rw [if_neg (by simpa [entryCursor] using hty')]
      have hsh : es₁ ++ e :: e' :: es₂' = (es₁ ++ [e]) ++ e' :: es₂' := by simp
      rw [hsh] at hwf
      rw [ih (es₁ ++ [e]) e' f hwf (by simp only [List.length_cons] at hf; omega)]
      simp

/-- Full iteration of a well-formed dictionary lists the entry cursors in
buffer order. -/
theorem iterate_list_spec (d : Udict) (es : List UdictEntry)
    (hwf : wfUdict d es) :
    udict_iterate_list d.buf = es.map entryCursor := by
  unfold udict_iterate_list
  cases es with
  | nil =>
    have hstart := iterate_start d [] hwf
    simp [iterateListLoop, hstart, headCursor]
  | cons e es' =>
    have hstart := iterate_start d (e :: es') hwf
    have hve : validEntry e = true := by
      obtain ⟨_, hv, _⟩ := hwf
      exact hv e (by simp)
    have htyne := validEntry_ty_ne_end e hve
    simp only [iterateListLoop, hstart, headCursor]
    rw [if_neg (by simpa [entryCursor] using htyne)]
    have hfuel : es'.length + 1 ≤ d.buf.length := by
      obtain ⟨hbuf, _, _⟩ := hwf
      have h1 := length_le_encodeEntries (e :: es')
      have h2 : d.buf.length = (encodeEntries (e :: es')).length + 1 := by
        rw [hbuf]
        simp
      simp only [List.length_cons] at h1
      omega
    rw [iterateListLoop_spec d es' [] e d.buf.length hwf hfuel]
    simp

/-- The END walk over encoded entries lands on the final sentinel. -/
theorem endWalkLoop_spec : ∀ (es : List UdictEntry) (fuel : Nat)
    (pre : List Nat),
    (∀ e ∈ es, validEntry e = true) → es.length + 1 ≤ fuel →
    endWalkLoop (pre ++ (encodeEntries es ++ [0])) fuel pre.length =
      some (pre.length + (encodeEntries es).length) := by
  intro es
  induction es with
  | nil =>
    intro fuel pre _ hf
    cases fuel with
    | zero => omega
    | succ f =>
      have hb : byteAt (pre ++ [0]) pre.length = 0 := by
        simpa using byteAt_append_right pre [0] 0
      simp [endWalkLoop, encodeEntries_nil, hb, UDICT_TYPE_END]
  | cons e es' ih =>
    intro fuel pre hv hf
    cases fuel with
    | zero => omega
    | succ f =>
      have hve := hv e (List.mem_cons_self _ _)
      have htyne := validEntry_ty_ne_end e hve
      have hbuf : pre ++ (encodeEntries (e :: es') ++ [0]) =
          pre ++ encodeEntry e ++ (encodeEntries es' ++ [0]) := by
        rw [encodeEntries_cons]
        simp
      rw [hbuf]
      have hb : byteAt (pre ++ encodeEntry e ++ (encodeEntries es' ++ [0]))
          pre.length = e.ty := encodeEntry_head _ _ _
      simp only [endWalkLoop, hb]
      rw [if_neg (by simpa [UDICT_TYPE_END] using htyne)]
      rw [next_encode pre (encodeEntries es' ++ [0]) e hve]
      have hplen : pre.length + (encodeEntry e).length =
          (pre ++ encodeEntry e).length := by simp
      rw [hplen]
      have hgoal := ih f (pre ++ encodeEntry e)
        (fun e' h => hv e' (List.mem_cons_of_mem _ h))
        (by simp only [List.length_cons] at hf; omega)
      have hlen2 : (pre ++ encodeEntry e).length +
          (encodeEntries es').length =
          pre.length + (encodeEntries (e :: es')).length := by
        rw [encodeEntries_cons]
        simp
        omega
      rw [← hlen2]
      simpa [List.append_assoc] using hgoal

/-- On a well-formed dictionary the decoding walk reaches exactly the final
sentinel byte. -/
theorem endWalk_spec (d : Udict) (es : List UdictEntry) (hwf : wfUdict d es) :
    endWalk d.buf = some (d.buf.length - 1) := by
  obtain ⟨hbuf, hv, _⟩ := hwf
  unfold endWalk
  have hb2 : d.buf = [] ++ (encodeEntries es ++ [0]) := by
    rw [hbuf]
    simp [UDICT_TYPE_END]
  rw [hb2]
  have hfuel : es.length + 1 ≤
      (([] : List Nat) ++ (encodeEntries es ++ [0])).length + 1 := by
    have := length_le_encodeEntries es
    simp
    omega
  have := endWalkLoop_spec es _ [] hv hfuel
  simpa using this

theorem distinctSetKeys_append_left (a b : List DOp)
    (h : distinctSetKeys (a ++ b) = true) : distinctSetKeys a = true := by
  induction a with
  | nil => rfl
  | cons op a' ih =>
    cases op with
    | dset n t v =>
      simp only [List.cons_append, distinctSetKeys, Bool.and_eq_true] at h ⊢
      refine ⟨?_, ih h.2⟩
      have := h.1
      simp only [List.append_eq, List.all_append, Bool.and_eq_true] at this
      exact this.1
    | ddel n t =>
      simp only [List.cons_append, distinctSetKeys] at h ⊢
      exact ih h

/-- Writing a zero tail at `pos + v.length` and then `v` at `pos` rewrites the
contiguous region `[pos, pos + v.length + z.length)` of the buffer. -/
theorem writeBytes_twice (buf : List Nat) (pos : Nat) (v z : List Nat)
    (hbound : pos + v.length + z.length ≤ buf.length) :
    writeBytes (writeBytes buf (pos + v.length) z) pos v =
      buf.take pos ++ v ++ (z ++ buf.drop (pos + v.length + z.length)) := by
  have hlen1 : (buf.take (pos + v.length)).length = pos + v.length := by
    rw [List.length_take]
    omega
  have hzb : writeBytes buf (pos + v.length) z =
      buf.take (pos + v.length) ++
        (z ++ buf.drop (pos + v.length + z.length)) := by
    unfold writeBytes
    rw [List.append_assoc]
  rw [hzb]
  unfold writeBytes
  have htake : (buf.take (pos + v.length) ++
      (z ++ buf.drop (pos + v.length + z.length))).take pos = buf.take pos := by
    rw [List.take_append_of_le_length (by rw [hlen1]; omega), List.take_take]
    congr 1
    omega
  have hdrop : (buf.take (pos + v.length) ++
      (z ++ buf.drop (pos + v.length + z.length))).drop (pos + v.length) =
      z ++ buf.drop (pos + v.length + z.length) := by
    rw [List.drop_append_of_le_length (by rw [hlen1]),
      List.drop_eq_nil_of_le (by rw [hlen1]), List.nil_append]
  rw [htake, hdrop]

/-- The header of an entry only depends on the length of its value. -/
theorem encodeHeader_value_congr (e : UdictEntry) (w : List Nat)
    (hlen : w.length = e.value.length) :
    encodeHeader ⟨e.ty, e.name, w⟩ = encodeHeader e := by
  simp only [encodeHeader, hlen]

/-- Replacing the value of a valid entry with byte-ranged bytes of the same
length keeps it valid. -/
theorem validEntry_value_congr (e : UdictEntry) (w : List Nat)
    (hlen : w.length = e.value.length) (hb : ∀ b ∈ w, b < 256)
    (hv : validEntry e = true) : validEntry ⟨e.ty, e.name, w⟩ = true := by
  simp only [validEntry, Bool.and_eq_true] at hv ⊢
  obtain ⟨_, hv2⟩ := hv
  constructor
  · simp only [List.all_eq_true, decide_eq_true_eq]
    exact hb
  · simpa only [hlen] using hv2

/-- Replacing the middle entry by one with the same type and name preserves
pairwise key distinctness. -/
theorem pairwise_replace_mid (es₁ : List UdictEntry) (e e' : UdictEntry)
    (es₂ : List UdictEntry) (hty : e'.ty = e.ty) (hnm : e'.name = e.name)
    (h : (es₁ ++ e :: es₂).Pairwise entryKeyDistinct) :
    (es₁ ++ e' :: es₂).Pairwise entryKeyDistinct := by
  rw [List.pairwise_append, List.pairwise_cons] at h ⊢
  obtain ⟨h1, ⟨h2a, h2b⟩, h3⟩ := h
  refine ⟨h1, ⟨?_, h2b⟩, ?_⟩
  · intro b hb hc
    exact h2a b hb (by rwa [hty, hnm] at hc)
  · intro a ha b hb
    rcases List.mem_cons.1 hb with hb | hb
    · subst hb
      intro hc
      exact h3 a ha e (List.mem_cons_self _ _) (by rwa [hty, hnm] at hc)
    · exact h3 a ha b (List.mem_cons_of_mem _ hb)

/-- Claim C7: a set over an existing string-typed key with a strictly smaller
value overwrites in place: the buffer keeps its length, the record keeps its
position and allocated size (same header at the same offset), the old value's
tail is zeroed, and every other entry of the dictionary is unchanged. -/
theorem string_shrink_in_place (mgr : UdictMgr) (d : Udict)
    (es₁ : List UdictEntry) (e : UdictEntry) (es₂ : List UdictEntry)
    (n : List Nat) (t : Nat) (v : List Nat)
    (hwf : wfUdict d (es₁ ++ e :: es₂))
    (hkey : validKey n t = true)
    (hnm : ∀ e' ∈ es₁, entryMatches e' n t = false)
    (hm : entryMatches e n t = true)
    (hbase : if UDICT_TYPE_SHORTHAND < t then
        (udict_inline_shorthand t).map (fun sh => sh.base_type) =
          some UDICT_TYPE_STRING
      else t = UDICT_TYPE_STRING)
    (hlt : v.length < e.value.length)
    (hvb : ∀ b ∈ v, b < 256) :
    ∃ d', udict_inline_set mgr d n t v = some d' ∧
      d'.cap = d.cap ∧
      d'.buf.length = d.buf.length ∧
      d'.buf = d.buf.take
          ((encodeEntries es₁).length + (encodeHeader e).length) ++ v ++
        (List.replicate (e.value.length - v.length) 0 ++
          d.buf.drop ((encodeEntries es₁).length + (encodeHeader e).length +
            e.value.length)) ∧
      wfUdict d' (es₁ ++
        (⟨e.ty, e.name, v ++ List.replicate (e.value.length - v.length) 0⟩ :
          UdictEntry) :: es₂) := by
  have hty := validKey_ty n t hkey
  have hname := validKey_name n t hkey
  have hget := get_pos_spec_found d es₁ e es₂ n t hwf hty hname hnm hm
  obtain ⟨hbuf, hvAll, hpw⟩ := hwf
  have hve : validEntry e = true := hvAll e (by simp)
  have hshape : d.buf = encodeEntries es₁ ++ encodeEntry e ++
      (encodeEntries es₂ ++ [0]) := by
    rw [hbuf, encodeEntries_append, encodeEntries_cons]
    simp [UDICT_TYPE_END]
  have hesplit := encodeEntry_split e hve
  have hee_len : (encodeEntry e).length =
      (encodeHeader e).length + e.value.length := by
    rw [hesplit]
    simp
  have hbound : (encodeEntries es₁).length + (encodeHeader e).length +
      e.value.length ≤ d.buf.length := by
    rw [hshape]
    simp only [List.length_append]
    omega
  set pos := (encodeEntries es₁).length + (encodeHeader e).length with hpos
  set z := List.replicate (e.value.length - v.length) 0 with hz
  have hzlen : z.length = e.value.length - v.length := by
    rw [hz, List.length_replicate]
  have hbound2 : pos + v.length + z.length ≤ d.buf.length := by
    rw [hzlen]
    omega
  have hwrite := writeBytes_twice d.buf pos v z hbound2
  have hidx : pos + v.length + z.length = pos + e.value.length := by
    rw [hzlen]
    omega
  rw [hidx] at hwrite
  -- reduce the set call to the shrink branch
  have hset : udict_inline_set mgr d n t v =
      some (Udict.mk (writeBytes (writeBytes d.buf (pos + v.length) z) pos v)
        d.cap) := by
    by_cases hsh : UDICT_TYPE_SHORTHAND < t
    · rw [if_pos hsh] at hbase
      match hshv : udict_inline_shorthand t with
      | none => rw [hshv] at hbase; cases hbase
      | some sh =>
        rw [hshv] at hbase
        simp only [Option.map, Option.some.injEq] at hbase
        have hvar : isVarBase sh.base_type = true := by
          rw [hbase]
          decide
        unfold udict_inline_set
        rw [if_pos hsh]
        simp only [hshv, hget]
        rw [if_neg (by
          rintro (hc | hc)
          · exact hc hvar
          · omega)]
        rw [if_pos ⟨hbase, hlt⟩]
    · rw [if_neg hsh] at hbase
      have hvar : isVarBase t = true := by
        rw [hbase]
        decide
      unfold udict_inline_set
      rw [if_neg hsh]
      simp only [hget]
      rw [if_neg (by
        rintro (hc | hc)
        · exact hc hvar
        · omega)]
      rw [if_pos ⟨hbase, hlt⟩]
  refine ⟨_, hset, rfl, ?_, ?_, ?_⟩
  · rw [hwrite]
    simp only [List.length_append, List.length_take, List.length_drop, hzlen]
    omega
  · exact hwrite
  · -- well-formedness of the shrunk dictionary
    have hvlen : (v ++ z).length = e.value.length := by
      rw [List.length_append, hzlen]
      omega
    have hve' : validEntry ⟨e.ty, e.name, v ++ z⟩ = true := by
      refine validEntry_value_congr e (v ++ z) hvlen ?_ hve
      intro b hb
      rcases List.mem_append.1 hb with h | h
      · exact hvb b h
      · rw [hz] at h
        have := List.eq_of_mem_replicate h
        omega
    have hhdr' : encodeHeader ⟨e.ty, e.name, v ++ z⟩ = encodeHeader e :=
      encodeHeader_value_congr e (v ++ z) hvlen
    refine ⟨?_, ?_, ?_⟩
    · -- buffer shape
      show writeBytes (writeBytes d.buf (pos + v.length) z) pos v = _
      rw [hwrite]
      have htk : d.buf.take pos = encodeEntries es₁ ++ encodeHeader e := by
        rw [hshape, hpos, take_middle _ _ _ _ (by omega), hesplit,
          List.take_left]
      have hdp : d.buf.drop (pos + e.value.length) =
          encodeEntries es₂ ++ [0] := by
        have : pos + e.value.length = (encodeEntries es₁).length +
            (encodeEntry e).length := by
          rw [hpos, hee_len]
          omega
        rw [hshape, this, drop_middle _ _ _ _ (by omega), List.drop_length,
          List.nil_append]
      rw [htk, hdp, encodeEntries_append, encodeEntries_cons]
      have henc' : encodeEntry (⟨e.ty, e.name, v ++ z⟩ : UdictEntry) =
          encodeHeader e ++ (v ++ z) := by
        rw [encodeEntry_split _ hve', hhdr']
      rw [henc']
      simp [UDICT_TYPE_END, List.append_assoc]
    · intro e' he'
      rcases List.mem_append.1 he' with h | h
      · exact hvAll e' (List.mem_append_left _ h)
      · rcases List.mem_cons.1 h with h | h
        · subst h
          exact hve'
        · exact hvAll e' (by simp [h])
    · exact pairwise_replace_mid es₁ e _ es₂ rfl rfl hpw

/-- Witness for `string_shrink_in_place`: shrinking the 3-byte string under
name `[97]` to the single byte `[88]` zeroes the tail in place. -/
theorem string_shrink_in_place_witness :
    validKey [97] UDICT_TYPE_STRING = true ∧
    ∃ d', udict_inline_set ⟨128, 64⟩ ⟨[2, 0, 5, 97, 0, 65, 66, 67, 0], 128⟩
        [97] UDICT_TYPE_STRING [88] = some d' ∧ d'.cap = 128 ∧
      d'.buf = [2, 0, 5, 97, 0, 88, 0, 0, 0] := by
  refine ⟨by decide, ?_⟩
  obtain ⟨d', h1, h2, h3, h4, h5⟩ := string_shrink_in_place ⟨128, 64⟩
    ⟨[2, 0, 5, 97, 0, 65, 66, 67, 0], 128⟩ []
    ⟨UDICT_TYPE_STRING, [97], [65, 66, 67]⟩ [] [97] UDICT_TYPE_STRING [88]
    (by exact ⟨by decide, by decide, by simp⟩)
    (by decide) (by decide) (by decide) (by decide) (by decide) (by decide)
  exact ⟨d', h1, h2, h4.trans (by decide)⟩

/-- Claim C2: from a freshly allocated dictionary, any valid sequence of set
and delete operations over distinct set keys succeeds; iterating the result
enumerates exactly the surviving keys (the entries set and not subsequently
deleted, in insertion order), get returns the stored value of the surviving
entry for its key, and get fails for every key with no surviving entry. -/
theorem dict_round_trip (mgr : UdictMgr) (sz : Nat) (ops : List DOp)
    (hv : validOps ops = true) :
    ∃ d', applyOps mgr (udict_inline_alloc mgr sz) ops = some d' ∧
      udict_iterate_list d'.buf = (survivors ops).map entryCursor ∧
      (∀ n t e, validKey n t = true →
        (survivors ops).find? (fun e' => entryMatches e' n t) = some e →
        udict_get_bytes d'.buf n t = some e.value) ∧
      (∀ n t, validKey n t = true →
        (survivors ops).find? (fun e' => entryMatches e' n t) = none →
        udict_get_bytes d'.buf n t = none) := by
  simp only [validOps, Bool.and_eq_true] at hv
  obtain ⟨hall, hdk⟩ := hv
  have hwf0 : wfUdict (udict_inline_alloc mgr sz) [] := by
    refine ⟨?_, by simp, by simp⟩
    simp [udict_inline_alloc, encodeEntries]
  obtain ⟨d', happ, hwf'⟩ := applyOps_wf ops [] (udict_inline_alloc mgr sz) mgr
    hwf0 (fun op h => by
      rw [List.all_eq_true] at hall
      exact hall op h)
    hdk (fun n t v _ e he => absurd he (List.not_mem_nil e))
  rw [absApply_nil_eq_survivors ops hdk] at hwf'
  refine ⟨d', happ, iterate_list_spec d' _ hwf', ?_, ?_⟩
  · intro n t e hk hf
    exact (get_wf_lookup d' _ n t hwf' (validKey_ty n t hk)
      (validKey_name n t hk)).1 e hf
  · intro n t hk hf
    exact (get_wf_lookup d' _ n t hwf' (validKey_ty n t hk)
      (validKey_name n t hk)).2 hf

/-- Witness for `dict_round_trip`: two sets and a delete starting from a fresh
dictionary. -/
theorem dict_round_trip_witness :
    validOps c2ops = true ∧
    ∃ d', applyOps ⟨128, 64⟩ (udict_inline_alloc ⟨128, 64⟩ 0) c2ops =
        some d' ∧
      udict_iterate_list d'.buf = (survivors c2ops).map entryCursor ∧
      (∀ n t e, validKey n t = true →
        (survivors c2ops).find? (fun e' => entryMatches e' n t) = some e →
        udict_get_bytes d'.buf n t = some e.value) ∧
      (∀ n t, validKey n t = true →
        (survivors c2ops).find? (fun e' => entryMatches e' n t) = none →
        udict_get_bytes d'.buf n t = none) :=
  ⟨by decide, dict_round_trip ⟨128, 64⟩ 0 c2ops (by decide)⟩

/-- Claim C5: right after allocation, and after every prefix of a valid
operation sequence (deletes, and sets including those that grow the buffer),
the byte at index size-1 of the used region is the END type code and the
decoding walk of the buffer terminates exactly at that sentinel. -/
theorem end_sentinel_invariant (mgr : UdictMgr) (sz : Nat) (ops : List DOp)
    (hv : validOps ops = true) (k : Nat) :
    (byteAt (udict_inline_alloc mgr sz).buf
        ((udict_inline_alloc mgr sz).buf.length - 1) = UDICT_TYPE_END ∧
      endWalk (udict_inline_alloc mgr sz).buf =
        some ((udict_inline_alloc mgr sz).buf.length - 1)) ∧
    ∀ d', applyOps mgr (udict_inline_alloc mgr sz) (ops.take k) = some d' →
      byteAt d'.buf (d'.buf.length - 1) = UDICT_TYPE_END ∧
      endWalk d'.buf = some (d'.buf.length - 1) := by
  simp only [validOps, Bool.and_eq_true] at hv
  obtain ⟨hall, hdk⟩ := hv
  have hwf0 : wfUdict (udict_inline_alloc mgr sz) [] := by
    refine ⟨?_, by simp, by simp⟩
    simp [udict_inline_alloc, encodeEntries]
  constructor
  · constructor
    · simp [udict_inline_alloc, byteAt, UDICT_TYPE_END]
    · simp [udict_inline_alloc]
      rfl
  · have hallk : ∀ op ∈ ops.take k, validOp op = true := by
      rw [List.all_eq_true] at hall
      exact fun op h => hall op (List.take_subset k ops h)
    have hdkk : distinctSetKeys (ops.take k) = true := by
      refine distinctSetKeys_append_left (ops.take k) (ops.drop k) ?_
      rw [List.take_append_drop]
      exact hdk
    obtain ⟨d'', happ, hwf''⟩ := applyOps_wf (ops.take k) []
      (udict_inline_alloc mgr sz) mgr hwf0 hallk hdkk
      (fun n t v _ e he => absurd he (List.not_mem_nil e))
    intro d' hd'
    rw [happ] at hd'
    cases hd'
    obtain ⟨hbuf, _, _⟩ := hwf''
    constructor
    · rw [hbuf]
      have hl : (encodeEntries (absApply [] (ops.take k)) ++
          [UDICT_TYPE_END]).length - 1 =
          (encodeEntries (absApply [] (ops.take k))).length := by
        simp
      rw [hl]
      simpa using byteAt_append_right
        (encodeEntries (absApply [] (ops.take k))) [UDICT_TYPE_END] 0
    · exact endWalk_spec d'' _ ⟨hbuf, by assumption, by assumption⟩

/-- Witness for `end_sentinel_invariant`: a one-byte dictionary grown by a set
(prefix of length 1 of `c5ops`). -/
theorem end_sentinel_invariant_witness :
    validOps c5ops = true ∧
    ((byteAt (udict_inline_alloc ⟨1, 2⟩ 0).buf
        ((udict_inline_alloc ⟨1, 2⟩ 0).buf.length - 1) = UDICT_TYPE_END ∧
      endWalk (udict_inline_alloc ⟨1, 2⟩ 0).buf =
        some ((udict_inline_alloc ⟨1, 2⟩ 0).buf.length - 1)) ∧
     ∀ d', applyOps ⟨1, 2⟩ (udict_inline_alloc ⟨1, 2⟩ 0) (c5ops.take 1) =
        some d' →
      byteAt d'.buf (d'.buf.length - 1) = UDICT_TYPE_END ∧
      endWalk d'.buf = some (d'.buf.length - 1)) :=
  ⟨by decide, end_sentinel_invariant ⟨1, 2⟩ 0 c5ops (by decide) 1⟩

end Upipe
